import Mathlib

/-!
# Verification of `patch.Struct` (github.com/echlebek/patch)

A shallow embedding of `patch.go`.  The two functions of the package,
`Struct` and `jsonFieldName`, are translated statement by statement.  The
library operations they call are modelled as follows.

* `reflect`: a `Value` is a view on an object together with the flags that
  `reflect` keeps (`flagAddr`, `flagRO`).  Pointers are addresses into a heap
  of variables, so that chains of pointers and interfaces of any shape,
  including cyclic ones, can be written down.
* `reflect.Zero` and `json.Unmarshal` are not part of the package; they are
  the two components of a `Lib` that every definition and theorem takes as an
  argument.  `Struct` gives `json.Unmarshal` a pointer to a field, and
  `json.Unmarshal` writes wherever it gets from there: through a pointer the
  field holds it reaches other fields of the same record.  `Unmarshal`
  therefore receives the bytes, the declared type and the number of the
  destination field and the values of all fields of the record, and returns
  the values it leaves in the fields and its error.  Storage outside the
  record is not modelled.
* `reflect.StructTag` is represented in parsed form, as the key/value pairs a
  conventional tag string denotes.
-/

namespace Patch

/-! ## reflect.Kind -/

/-- The kinds of `reflect`, in the order of the Go declaration. -/
inductive Kind where
  | Invalid | Bool | Int | Int8 | Int16 | Int32 | Int64
  | Uint | Uint8 | Uint16 | Uint32 | Uint64 | Uintptr
  | Float32 | Float64 | Complex64 | Complex128
  | Array | Chan | Func | Interface | Map | Ptr | Slice | String | Struct
  | UnsafePointer
  deriving DecidableEq, Repr

/-- The table behind `Kind.String()`. -/
def kindNames : Kind → String
  | .Invalid => "invalid" | .Bool => "bool" | .Int => "int" | .Int8 => "int8"
  | .Int16 => "int16" | .Int32 => "int32" | .Int64 => "int64"
  | .Uint => "uint" | .Uint8 => "uint8" | .Uint16 => "uint16"
  | .Uint32 => "uint32" | .Uint64 => "uint64" | .Uintptr => "uintptr"
  | .Float32 => "float32" | .Float64 => "float64"
  | .Complex64 => "complex64" | .Complex128 => "complex128"
  | .Array => "array" | .Chan => "chan" | .Func => "func"
  | .Interface => "interface" | .Map => "map" | .Ptr => "ptr"
  | .Slice => "slice" | .String => "string" | .Struct => "struct"
  | .UnsafePointer => "unsafe.Pointer"

/-- The kinds of values that are neither a struct, a pointer nor an interface.
`Struct` looks at nothing but the kind of such a value. -/
inductive PlainKind where
  | Bool | Int | Int8 | Int16 | Int32 | Int64
  | Uint | Uint8 | Uint16 | Uint32 | Uint64 | Uintptr
  | Float32 | Float64 | Complex64 | Complex128
  | Array | Chan | Func | Map | Slice | String | UnsafePointer
  deriving DecidableEq, Repr

/-- The `reflect.Kind` of a plain value. -/
def PlainKind.toKind : PlainKind → Kind
  | .Bool => .Bool | .Int => .Int | .Int8 => .Int8 | .Int16 => .Int16
  | .Int32 => .Int32 | .Int64 => .Int64 | .Uint => .Uint | .Uint8 => .Uint8
  | .Uint16 => .Uint16 | .Uint32 => .Uint32 | .Uint64 => .Uint64
  | .Uintptr => .Uintptr | .Float32 => .Float32 | .Float64 => .Float64
  | .Complex64 => .Complex64 | .Complex128 => .Complex128
  | .Array => .Array | .Chan => .Chan | .Func => .Func | .Map => .Map
  | .Slice => .Slice | .String => .String | .UnsafePointer => .UnsafePointer

/-! ## Struct fields, tags and `jsonFieldName` -/

/-- A `reflect.StructTag` in parsed form: the `key:"value"` pairs of the tag
string, in order. -/
abbrev StructTag := List (String × String)

/-- `StructTag.Get`: the value of the first pair with the given key, and the
empty string when there is none. -/
def StructTag.Get (tag : StructTag) (key : String) : String :=
  match tag.lookup key with
  | some v => v
  | none => ""

/-- A `reflect.StructField`: the declared identifier, the package path (empty
exactly for an exported field), the tag and the declared type. -/
structure StructField (Ty : Type) where
  Name : String
  PkgPath : String
  Tag : StructTag
  Typ : Ty
  deriving DecidableEq, Repr

/-- The segments of a character sequence between occurrences of `sep`. -/
def splitChars (sep : Char) : List Char → List (List Char)
  | [] => [[]]
  | c :: cs =>
    if c = sep then [] :: splitChars sep cs
    else
      match splitChars sep cs with
      | [] => [[c]]
      | seg :: segs => (c :: seg) :: segs

/-- `strings.Split` for a one-character separator. -/
def stringsSplit (s : String) (sep : Char) : List String :=
  (splitChars sep s.data).map String.mk

/-- The function `jsonFieldName` of `patch.go`.  The index `[0]` is applied to a
slice that is never empty (`stringsSplit_ne_nil`). -/
def jsonFieldName {Ty : Type} (field : StructField Ty) : String :=
  let name := (stringsSplit (field.Tag.Get "json") ',').headD ""
  if name = "" then field.Name else name

/-- The first comma-delimited segment of a string, as the specification words
it: the characters before the first comma. -/
def firstCommaSegment (s : String) : String :=
  String.mk (s.data.takeWhile (fun c => c != ','))

/-! ## Objects, the heap and `reflect.Value` -/

/-- An address of a variable. -/
abbrev Addr := Nat

/-- A field of a struct value: its descriptor and the value it holds. -/
structure FieldSlot (Ty Val : Type) where
  field : StructField Ty
  val : Val
  deriving DecidableEq, Repr

/-- A value of a concrete (non-interface) type, as far as `Struct` observes
it: a struct with its fields, a pointer (nil or the address of a variable), or
a value of another kind. -/
inductive Concrete (Ty Val : Type) where
  | struct (fields : List (FieldSlot Ty Val))
  | ptr (target : Option Addr)
  | plain (k : PlainKind)
  deriving DecidableEq, Repr

/-- The contents of a variable: a value of concrete type, or an interface value
(nil, or holding a value of concrete type). -/
inductive Obj (Ty Val : Type) where
  | concrete (c : Concrete Ty Val)
  | iface (dyn : Option (Concrete Ty Val))
  deriving DecidableEq, Repr

/-- The heap: what each variable holds. -/
abbrev Heap (Ty Val : Type) := Addr → Obj Ty Val

/-- A `reflect.Value`.  `obj = none` is the zero Value.  `flagAddr` holds the
address of the variable the value lives in when the value is addressable. -/
structure Value (Ty Val : Type) where
  obj : Option (Obj Ty Val)
  flagAddr : Option Addr
  flagRO : Bool
  deriving DecidableEq, Repr

/-- The zero `reflect.Value`. -/
def Value.zero {Ty Val : Type} : Value Ty Val := ⟨none, none, false⟩

/-- `reflect.ValueOf`.  The argument is an `interface{}`: nil, or a value of
concrete type. -/
def ValueOf {Ty Val : Type} (resource : Option (Concrete Ty Val)) : Value Ty Val :=
  match resource with
  | none => Value.zero
  | some c => ⟨some (.concrete c), none, false⟩

/-- `Value.Kind`. -/
def Value.Kind {Ty Val : Type} (v : Value Ty Val) : Kind :=
  match v.obj with
  | none => .Invalid
  | some (.iface _) => .Interface
  | some (.concrete (.struct _)) => .Struct
  | some (.concrete (.ptr _)) => .Ptr
  | some (.concrete (.plain k)) => k.toKind

/-- `Value.CanAddr`. -/
def Value.CanAddr {Ty Val : Type} (v : Value Ty Val) : Bool :=
  v.flagAddr.isSome

/-- `Value.Elem`.  `none` stands for the panic on a value that is neither an
interface nor a pointer. -/
def Value.Elem {Ty Val : Type} (h : Heap Ty Val) (v : Value Ty Val) :
    Option (Value Ty Val) :=
  match v.obj with
  | some (.iface none) => some Value.zero
  | some (.iface (some c)) => some ⟨some (.concrete c), none, v.flagRO⟩
  | some (.concrete (.ptr none)) => some Value.zero
  | some (.concrete (.ptr (some a))) => some ⟨some (h a), some a, v.flagRO⟩
  | _ => none

/-- The loop `for value.Kind() == Interface || value.Kind() == Ptr` of
`Struct`, run for at most `fuel` tests of its condition.  `none`: the loop
has not ended within `fuel` tests. -/
def unwrap {Ty Val : Type} (h : Heap Ty Val) : Nat → Value Ty Val → Option (Value Ty Val)
  | 0, _ => none
  | fuel + 1, value =>
    if value.Kind = .Interface ∨ value.Kind = .Ptr then
      match value.Elem h with
      | none => none
      | some value' => unwrap h fuel value'
    else some value

/-! ## Patch sets, errors and `Struct` -/

/-- A `json.RawMessage`: the bytes of a message, written as text. -/
abbrev RawMessage := String

/-- A patch set, `map[string]*json.RawMessage`, as its entries.  A `none` value
is a nil pointer. -/
abbrev Patches := List (String × Option RawMessage)

/-- The map index expression `patches[key]` with its `ok` result: `none` when
the key is absent, `some none` for a nil entry. -/
def Patches.get (patches : Patches) (key : String) : Option (Option RawMessage) :=
  patches.lookup key

/-- The library operations on the fields of a record. -/
structure Lib (Ty Val Err : Type) where
  /-- The operation `reflect.Zero`. -/
  Zero : Ty → Val
  /-- The operation `json.Unmarshal` with a pointer to field number `i` of the
  record, of the given declared type, when the fields of the record hold
  `vals`: the values it leaves in the fields and its error.  It may change
  fields other than the destination, which `json.Unmarshal` reaches through
  pointers that the destination holds. -/
  Unmarshal : RawMessage → Ty → Nat → List Val → List Val × Option Err

/-- A Go `error` returned by `Struct`: one made from a message by `fmt.Errorf`
or `errors.New`, or the error of `json.Unmarshal`, returned as it is. -/
inductive GoError (Err : Type) where
  | errorString (msg : String)
  | unmarshal (e : Err)
  deriving DecidableEq, Repr

/-- `value.Field(i).CanInterface()`: the field is read-only when the struct is,
or when the field is not exported. -/
def fieldCanInterface {Ty Val : Type} (structRO : Bool) (s : FieldSlot Ty Val) : Bool :=
  !(structRO || s.field.PkgPath != "")

/-- The fields of a record after `json.Unmarshal` has left the values `vals` in
them: the descriptors stay, the values are replaced one by one. -/
def writeBack {Ty Val : Type} : List (FieldSlot Ty Val) → List Val → List (FieldSlot Ty Val)
  | [], _ => []
  | s :: rest, [] => s :: rest
  | s :: rest, v :: vs => ⟨s.field, v⟩ :: writeBack rest vs

/-- The loop `for i := 0; i < valueT.NumField(); i++` of `Struct`, at field
number `i` with `n` fields still to visit, on the record as the earlier
iterations left it.  The result is the record as the loop leaves it and the
error returned (`none` for nil).  `canAddr` and `ro` are the flags of the
struct value, which every `value.Field(i)` inherits. -/
def fieldLoop {Ty Val Err : Type} (L : Lib Ty Val Err) (patches : Patches)
    (canAddr ro : Bool) :
    Nat → Nat → List (FieldSlot Ty Val) → List (FieldSlot Ty Val) × Option (GoError Err)
  | 0, _, record => (record, none)
  | n + 1, i, record =>
    match record[i]? with
    | none => (record, none)
    | some s =>
      if !canAddr || !fieldCanInterface ro s then
        fieldLoop L patches canAddr ro n (i + 1) record
      else
        match patches.get (jsonFieldName s.field) with
        | none => fieldLoop L patches canAddr ro n (i + 1) record
        | some none =>
          fieldLoop L patches canAddr ro n (i + 1) (record.set i ⟨s.field, L.Zero s.field.Typ⟩)
        | some (some patch) =>
          match L.Unmarshal patch s.field.Typ i (record.map (fun t => t.val)) with
          | (vals, some err) => (writeBack record vals, some (.unmarshal err))
          | (vals, none) => fieldLoop L patches canAddr ro n (i + 1) (writeBack record vals)

/-- The field loop of `Struct` on the fields of the record: `NumField`
iterations from field 0. -/
def patchFields {Ty Val Err : Type} (L : Lib Ty Val Err) (patches : Patches)
    (canAddr ro : Bool) (fields : List (FieldSlot Ty Val)) :
    List (FieldSlot Ty Val) × Option (GoError Err) :=
  fieldLoop L patches canAddr ro fields.length 0 fields

/-- The function `Struct` of `patch.go`.  The result is the heap it leaves and
the error it returns (`none` for nil); the outer `none` means that the
unwrapping loop has not ended within `fuel` tests.  The match on `value.obj`
is the test `value.Kind() != reflect.Struct` (`Kind_eq_Struct_iff`), which
comes first; the match on `value.flagAddr` is the test `!value.CanAddr()`. -/
def Struct {Ty Val Err : Type} (L : Lib Ty Val Err) (fuel : Nat) (h : Heap Ty Val)
    (resource : Option (Concrete Ty Val)) (patches : Patches) :
    Option (Heap Ty Val × Option (GoError Err)) :=
  match unwrap h fuel (ValueOf resource) with
  | none => none
  | some value =>
    match value.obj with
    | some (.concrete (.struct fields)) =>
      match value.flagAddr with
      | none => some (h, some (.errorString "unaddressable struct value"))
      | some a =>
        let r := patchFields L patches value.CanAddr value.flagRO fields
        some (Function.update h a (.concrete (.struct r.1)), r.2)
    | _ =>
      some (h, some (.errorString ("can't operate on non-struct: " ++ kindNames value.Kind)))

/-! ## Decoders that are confined to their destination -/

/-- The library operations when `json.Unmarshal` writes nothing but its
destination: `Unmarshal` receives the bytes, the declared type of the
destination and the value the destination holds, and returns the value it
leaves there and its error. -/
structure LocalLib (Ty Val Err : Type) where
  /-- The operation `reflect.Zero`. -/
  Zero : Ty → Val
  /-- The operation `json.Unmarshal` on the contents of its destination. -/
  Unmarshal : RawMessage → Ty → Val → Val × Option Err

/-- The library operations on a record that a confined decoder gives: the
destination field gets what the decoder leaves, every other field keeps its
value. -/
def Lib.ofLocal {Ty Val Err : Type} (U : LocalLib Ty Val Err) : Lib Ty Val Err :=
  ⟨U.Zero, fun data t i vals =>
    match vals[i]? with
    | some v => (vals.set i (U.Unmarshal data t v).1, (U.Unmarshal data t v).2)
    | none => (vals, none)⟩

/-- The library `L` writes nothing but the destination of each call and acts
there as the confined decoder `U`: no field holds a pointer through which
`json.Unmarshal` reaches another field of the record. -/
def ConfinedTo {Ty Val Err : Type} (L : Lib Ty Val Err) (U : LocalLib Ty Val Err) : Prop :=
  L.Zero = U.Zero ∧
  ∀ (data : RawMessage) (t : Ty) (i : Nat) (vals : List Val) (v : Val), vals[i]? = some v →
    L.Unmarshal data t i vals = (vals.set i (U.Unmarshal data t v).1, (U.Unmarshal data t v).2)

/-- The library `L` writes no field but the destination of each call: no field
holds a pointer through which `json.Unmarshal` reaches another field of the
record. -/
def WritesOnlyDestination {Ty Val Err : Type} (L : Lib Ty Val Err) : Prop :=
  ∀ (data : RawMessage) (t : Ty) (i : Nat) (vals : List Val) (v : Val) (j : Nat),
    vals[i]? = some v → j ≠ i → (L.Unmarshal data t i vals).1[j]? = vals[j]?

/-! ## A library instance for concrete inputs -/

/-- The field types of the instance. -/
inductive GoType where
  | int | string | bool
  deriving DecidableEq, Repr

/-- The field values of the instance. -/
inductive GoValue where
  | int (n : Int)
  | string (s : String)
  | bool (b : Bool)
  deriving DecidableEq, Repr

/-- The zero value of each type of the instance. -/
def GoType.Zero : GoType → GoValue
  | .int => .int 0
  | .string => .string ""
  | .bool => .bool false

/-- An error of `json.Unmarshal`: the message it was given and the type of
the destination it could not decode the message into. -/
structure JsonError where
  data : RawMessage
  typ : GoType
  deriving DecidableEq, Repr

/-- The value of a sequence of decimal digits, most significant first, added to
`acc`; `none` when a character is not a digit. -/
def digitsValue : Nat → List Char → Option Nat
  | acc, [] => some acc
  | acc, c :: cs =>
    if '0' ≤ c ∧ c ≤ '9' then digitsValue (acc * 10 + (c.toNat - '0'.toNat)) cs
    else none

/-- The value of a JSON number without sign, fraction or exponent. -/
def naturalLiteral : List Char → Option Nat
  | [] => none
  | ['0'] => some 0
  | '0' :: _ => none
  | cs => digitsValue 0 cs

/-- The value of a JSON integer literal within the range of a 64-bit `int`. -/
def intLiteral (cs : List Char) : Option Int :=
  let n : Option Int :=
    match cs with
    | '-' :: ds => (naturalLiteral ds).map (fun k => - (k : Int))
    | ds => (naturalLiteral ds).map (fun k => (k : Int))
  match n with
  | some k => if -9223372036854775808 ≤ k ∧ k ≤ 9223372036854775807 then some k else none
  | none => none

/-- The contents of a JSON string literal that has no escape sequence. -/
def stringLiteral : List Char → Option String
  | '"' :: cs =>
    match cs.reverse with
    | '"' :: body =>
      if body.all (fun c => c != '"' && c != '\\' && 32 ≤ c.toNat) then some (String.mk body.reverse)
      else none
    | _ => none
  | _ => none

/-- A fragment of `json.Unmarshal` for the types of the instance: it decodes
`null` (which leaves the destination as it is), integer literals, string
literals without escape sequences, `true` and `false`, and fails on every
other message, leaving the destination as it is.  It stands for
`json.Unmarshal` at the messages of the examples only: integer and string
literals without surrounding white space, `null`, and text that is not
JSON. -/
def jsonUnmarshal (data : RawMessage) (t : GoType) (old : GoValue) : GoValue × Option JsonError :=
  if data = "null" then (old, none)
  else
    match t with
    | .int =>
      match intLiteral data.data with
      | some n => (.int n, none)
      | none => (old, some ⟨data, t⟩)
    | .string =>
      match stringLiteral data.data with
      | some s => (.string s, none)
      | none => (old, some ⟨data, t⟩)
    | .bool =>
      if data = "true" then (.bool true, none)
      else if data = "false" then (.bool false, none)
      else (old, some ⟨data, t⟩)

/-- The confined decoder of the instance: `reflect.Zero` and the fragment of
`json.Unmarshal`.  Values of the types `int`, `string` and `bool` hold no
pointer. -/
def goLocal : LocalLib GoType GoValue JsonError := ⟨GoType.Zero, jsonUnmarshal⟩

/-- The library instance for records whose fields are of the types `int`,
`string` and `bool`. -/
def goLib : Lib GoType GoValue JsonError := Lib.ofLocal goLocal

/-- The fields of a `simpleResource` of the tests, holding the given values. -/
def simpleResourceFields (a : Int) (b : String) : List (FieldSlot GoType GoValue) :=
  [⟨⟨"A", "", [], .int⟩, .int a⟩, ⟨⟨"B", "", [], .string⟩, .string b⟩]

/-- The type `simpleResource` of the tests, holding the given values. -/
def simpleResource (a : Int) (b : String) : Concrete GoType GoValue :=
  .struct (simpleResourceFields a b)

/-- The fields of a `simpleWithTags` of the tests, holding the given values. -/
def simpleWithTagsFields (a : Int) (b : String) : List (FieldSlot GoType GoValue) :=
  [⟨⟨"A", "", [("json", "a")], .int⟩, .int a⟩, ⟨⟨"B", "", [("json", "b")], .string⟩, .string b⟩]

/-- The type `simpleWithTags` of the tests, holding the given values. -/
def simpleWithTags (a : Int) (b : String) : Concrete GoType GoValue :=
  .struct (simpleWithTagsFields a b)

/-- The fields of a `resourceWithUnexported` of the tests, holding the given
values.  The package path of the unexported field is the path of the test
package. -/
def resourceWithUnexportedFields (a b : Int) : List (FieldSlot GoType GoValue) :=
  [⟨⟨"a", "github.com/echlebek/patch_test", [("json", "a")], .int⟩, .int a⟩,
   ⟨⟨"B", "", [("json", "b")], .int⟩, .int b⟩]

/-- The type `resourceWithUnexported` of the tests, holding the given values. -/
def resourceWithUnexported (a b : Int) : Concrete GoType GoValue :=
  .struct (resourceWithUnexportedFields a b)

/-- The fields of a struct with two exported `int` fields, `A` and `B`. -/
def twoIntsFields (a b : Int) : List (FieldSlot GoType GoValue) :=
  [⟨⟨"A", "", [], .int⟩, .int a⟩, ⟨⟨"B", "", [], .int⟩, .int b⟩]

/-- A struct with two exported `int` fields, `A` and `B`. -/
def twoInts (a b : Int) : Concrete GoType GoValue :=
  .struct (twoIntsFields a b)

/-- The fields of a struct with the exported fields `A int`, `B int` and
`C string`. -/
def abcFields (a b : Int) (c : String) : List (FieldSlot GoType GoValue) :=
  [⟨⟨"A", "", [], .int⟩, .int a⟩, ⟨⟨"B", "", [], .int⟩, .int b⟩,
   ⟨⟨"C", "", [], .string⟩, .string c⟩]

/-- A heap whose variable 0 holds `c` and whose other variables hold nil
interfaces. -/
def heapOf (c : Concrete GoType GoValue) : Heap GoType GoValue :=
  fun a => if a = 0 then .concrete c else .iface none

/-- A pointer to variable 0, passed as the resource. -/
def ptr0 : Option (Concrete GoType GoValue) := some (.ptr (some 0))

/-- The heap of a test case: variable 1 is the field `test.Resource`, an
interface that holds `res`; variable 0 holds `pointee`, the struct that `res`
points to when it is a pointer. -/
def testHeap (pointee res : Concrete GoType GoValue) : Heap GoType GoValue :=
  fun a => if a = 0 then .concrete pointee else if a = 1 then .iface (some res) else .iface none

/-- The argument `&test.Resource` of the tests. -/
def testArg : Option (Concrete GoType GoValue) := some (.ptr (some 1))

/-- The contents of variable 0 after `Struct` and the error returned. -/
def runAt0 (fuel : Nat) (c : Concrete GoType GoValue) (patches : Patches) :
    Option (Obj GoType GoValue × Option (GoError JsonError)) :=
  (Struct goLib fuel (heapOf c) ptr0 patches).map (fun r => (r.1 0, r.2))


/-- A heap whose variable 0 holds `c` and whose other variables hold nil
interfaces, for any field types and values. -/
def heapAt0 {Ty Val : Type} (c : Concrete Ty Val) : Heap Ty Val :=
  fun a => if a = 0 then .concrete c else .iface none

/-- The fields of a struct with two exported `int` fields of the same exposed
name: `A`, without tag, and `B`, tagged `json:"A"`. -/
def sameNameFields (a b : Int) : List (FieldSlot GoType GoValue) :=
  [⟨⟨"A", "", [], .int⟩, .int a⟩, ⟨⟨"B", "", [("json", "A")], .int⟩, .int b⟩]

/-- The heap after `var i interface{}; i = &i`: variable 0 is the interface
variable `i`, which holds a pointer to variable 0. -/
def selfHeap : Heap GoType GoValue :=
  fun a => if a = 0 then .iface (some (.ptr (some 0))) else .iface none

/-! ## A library instance with composite fields -/

/-- The field types of the instance: the struct type `simpleWithTags` of the
tests, the pointer type `*simpleWithTags` of `resourceWithPointer`, and
`int`. -/
inductive CompositeType where
  | simpleWithTags | ptrSimpleWithTags | int
  deriving DecidableEq, Repr

/-- The field values of the instance: a `simpleWithTags` with its two fields; a
nil pointer; a pointer to a `simpleWithTags` outside the record, given by
what it points to; a pointer to field number `j` of the record itself, as
`&r.Inner` is; an `int`. -/
inductive CompositeValue where
  | struct (a : Int) (b : String)
  | nilPtr
  | ptr (a : Int) (b : String)
  | ptrField (j : Nat)
  | int (n : Int)
  deriving DecidableEq, Repr

/-- The zero value of each type of the instance. -/
def CompositeType.Zero : CompositeType → CompositeValue
  | .simpleWithTags => .struct 0 ""
  | .ptrSimpleWithTags => .nilPtr
  | .int => .int 0

/-- What a JSON object with at most one member says about a `simpleWithTags`:
nothing, a value for the field tagged "a", or a value for the field tagged
"b". -/
inductive Member where
  | empty
  | a (n : Int)
  | b (s : String)
  deriving DecidableEq, Repr

/-- The member of a JSON object written without white space that is empty or
has the single key "a" with an integer literal or the single key "b" with a
string literal. -/
def objectMember (cs : List Char) : Option Member :=
  match cs with
  | ['\x7b', '\x7d'] => some .empty
  | '\x7b' :: '"' :: 'a' :: '"' :: ':' :: rest =>
    match rest.reverse with
    | '\x7d' :: ds => (intLiteral ds.reverse).map Member.a
    | _ => none
  | '\x7b' :: '"' :: 'b' :: '"' :: ':' :: rest =>
    match rest.reverse with
    | '\x7d' :: ds => (stringLiteral ds.reverse).map Member.b
    | _ => none
  | _ => none

/-- Decoding an object into an existing `simpleWithTags`: the member sets its
field, and the other field keeps what it holds. -/
def Member.decodeInto (m : Member) (a : Int) (b : String) : Int × String :=
  match m with
  | .empty => (a, b)
  | .a n => (n, b)
  | .b s => (a, s)

/-- Decoding a message into the `simpleWithTags` that field number `j` holds:
`null` has no effect, an object sets the field of its member and keeps the
other, every other message fails and changes nothing. -/
def decodeStructAt (data : RawMessage) (j : Nat) (a : Int) (b : String)
    (vals : List CompositeValue) : List CompositeValue × Option RawMessage :=
  if data = "null" then (vals, none)
  else
    match objectMember data.data with
    | some m => (vals.set j (.struct (m.decodeInto a b).1 (m.decodeInto a b).2), none)
    | none => (vals, some data)

/-- A fragment of `json.Unmarshal` for the types of the instance, with a
pointer to field number `i`.  A struct is decoded into.  For a pointer, `null`
sets it to nil, and an object is decoded into the struct it points to: a
struct outside the record, the field of the record it points to (the pointer
itself stays), or a newly allocated zero struct when the pointer is nil.  An
`int` takes an integer literal.  Every other message fails and changes
nothing.  It stands for `json.Unmarshal` at the messages of the examples
only. -/
def compositeUnmarshal (data : RawMessage) (t : CompositeType) (i : Nat)
    (vals : List CompositeValue) : List CompositeValue × Option RawMessage :=
  match t, vals[i]? with
  | .simpleWithTags, some (.struct a b) => decodeStructAt data i a b vals
  | .ptrSimpleWithTags, some (.ptrField j) =>
    if data = "null" then (vals.set i .nilPtr, none)
    else
      match vals[j]? with
      | some (.struct a b) => decodeStructAt data j a b vals
      | _ => (vals, some data)
  | .ptrSimpleWithTags, some (.ptr a b) =>
    if data = "null" then (vals.set i .nilPtr, none)
    else
      match objectMember data.data with
      | some m => (vals.set i (.ptr (m.decodeInto a b).1 (m.decodeInto a b).2), none)
      | none => (vals, some data)
  | .ptrSimpleWithTags, some .nilPtr =>
    if data = "null" then (vals, none)
    else
      match objectMember data.data with
      | some m => (vals.set i (.ptr (m.decodeInto 0 "").1 (m.decodeInto 0 "").2), none)
      | none => (vals, some data)
  | .int, some (.int _) =>
    if data = "null" then (vals, none)
    else
      match intLiteral data.data with
      | some n => (vals.set i (.int n), none)
      | none => (vals, some data)
  | _, _ => (vals, some data)

/-- The library instance with composite fields.  The error of the fragment is
the message that could not be decoded. -/
def compositeLib : Lib CompositeType CompositeValue RawMessage :=
  ⟨CompositeType.Zero, compositeUnmarshal⟩

/-- The message that is the JSON object with the single member "a": 2. -/
def objectA2 : RawMessage := "\x7b\"a\":2\x7d"

/-- The message that is the JSON object with the single member "a": 3. -/
def objectA3 : RawMessage := "\x7b\"a\":3\x7d"

/-- The fields of `struct { Inner simpleWithTags; P *simpleWithTags }` with
`P = &r.Inner`, when `Inner` holds the given value. -/
def aliasedFields (inner : CompositeValue) : List (FieldSlot CompositeType CompositeValue) :=
  [⟨⟨"Inner", "", [], .simpleWithTags⟩, inner⟩, ⟨⟨"P", "", [], .ptrSimpleWithTags⟩, .ptrField 0⟩]

/-- The fields of `struct { inner simpleWithTags; P *simpleWithTags }` of a
package `main`, with `P = &r.inner`: the field `inner` is not exported. -/
def aliasedUnexportedFields (inner : CompositeValue) :
    List (FieldSlot CompositeType CompositeValue) :=
  [⟨⟨"inner", "main", [], .simpleWithTags⟩, inner⟩,
   ⟨⟨"P", "", [], .ptrSimpleWithTags⟩, .ptrField 0⟩]

/-- The fields of `struct { P *simpleWithTags; X int; Inner simpleWithTags }`
with `P = &r.Inner`. -/
def pointerFirstFields (x : Int) (inner : CompositeValue) :
    List (FieldSlot CompositeType CompositeValue) :=
  [⟨⟨"P", "", [], .ptrSimpleWithTags⟩, .ptrField 2⟩, ⟨⟨"X", "", [], .int⟩, .int x⟩,
   ⟨⟨"Inner", "", [], .simpleWithTags⟩, inner⟩]

/-- The fields of a struct with `A simpleWithTags`, with `B simpleWithTags`
tagged `json:"A"`, and with `P *simpleWithTags`, where `P = &r.A`. -/
def sameNameAliasedFields (a b : CompositeValue) :
    List (FieldSlot CompositeType CompositeValue) :=
  [⟨⟨"A", "", [], .simpleWithTags⟩, a⟩, ⟨⟨"B", "", [("json", "A")], .simpleWithTags⟩, b⟩,
   ⟨⟨"P", "", [], .ptrSimpleWithTags⟩, .ptrField 0⟩]

/-- The fields of a `resourceWithPointer` of the tests, whose field `A` holds
the given pointer. -/
def resourceWithPointerFields (v : CompositeValue) : List (FieldSlot CompositeType CompositeValue) :=
  [⟨⟨"A", "", [], .ptrSimpleWithTags⟩, v⟩]

/-- The fields of a struct with the single exported field `Inner` of type
`simpleWithTags`, holding the given value. -/
def withInnerFields (v : CompositeValue) : List (FieldSlot CompositeType CompositeValue) :=
  [⟨⟨"Inner", "", [], .simpleWithTags⟩, v⟩]

/-! ## A library instance with a type that implements `json.Unmarshaler` -/

/-- The field type of the instance: `type Counter int` with the method
`func (c *Counter) UnmarshalJSON(b []byte) error`, whose body is
`*c++; return nil`. -/
inductive CounterType where
  | Counter
  deriving DecidableEq, Repr

/-- A fragment of `json.Unmarshal` for a destination of type `Counter`: for a
message that is valid JSON (here, an integer literal) it calls `UnmarshalJSON`
on the destination, which adds one to it; every other message fails and
leaves the destination as it is. -/
def counterUnmarshal (data : RawMessage) (_t : CounterType) (old : Int) : Int × Option RawMessage :=
  match intLiteral data.data with
  | some _ => (old + 1, none)
  | none => (old, some data)

/-- The library instance for `Counter`.  A `Counter` holds no pointer. -/
def counterLib : Lib CounterType Int RawMessage :=
  Lib.ofLocal ⟨fun _ => 0, counterUnmarshal⟩

/-- The fields of a struct with the single exported field `C` of type
`Counter`, holding the given value. -/
def counterFields (c : Int) : List (FieldSlot CounterType Int) :=
  [⟨⟨"C", "", [], .Counter⟩, c⟩]

/-- The contents of variable 0 after `Struct` and the error returned, for a call
with a pointer to variable 0, which holds the struct with the given fields. -/
def runOn {Ty Val Err : Type} (L : Lib Ty Val Err) (fuel : Nat)
    (fields : List (FieldSlot Ty Val)) (patches : Patches) :
    Option (Obj Ty Val × Option (GoError Err)) :=
  (Struct L fuel (heapAt0 (.struct fields)) (some (.ptr (some 0))) patches).map
    (fun r => (r.1 0, r.2))

/-! ## A library instance with an `UnmarshalJSON` that writes through pointers -/

/-- The field types of the instance: `int`, and
`type Once struct { done, count *int }` with the method
`func (o *Once) UnmarshalJSON(b []byte) error`, whose body is
`if o.done != nil && o.count != nil && *o.done == 0 { *o.count++; *o.done = 1 }`
followed by `return nil`. -/
inductive OnceType where
  | int | Once
  deriving DecidableEq, Repr

/-- The field values of the instance: an `int`, and a `Once` whose two pointers
are nil or point to a field of the record, given by its number. -/
inductive OnceValue where
  | int (n : Int)
  | once (done count : Option Nat)
  deriving DecidableEq, Repr

/-- The method `UnmarshalJSON` of `Once`, for the pointers `done` and `count`,
on the values of the fields of the record. -/
def onceUnmarshalJSON (done count : Option Nat) (vals : List OnceValue) : List OnceValue :=
  match done, count with
  | some d, some c =>
    match vals[d]?, vals[c]? with
    | some (.int x), some (.int y) =>
      if x = 0 then (vals.set c (.int (y + 1))).set d (.int 1) else vals
    | _, _ => vals
  | _, _ => vals

/-- A fragment of `json.Unmarshal` for the types of the instance, with a
pointer to field number `i`.  For a destination of type `Once` and a message
that is valid JSON (here, an integer literal) it calls `UnmarshalJSON` on the
destination, which returns nil.  An `int` takes an integer literal, and `null`
has no effect on it.  Every other message fails and changes nothing. -/
def onceUnmarshal (data : RawMessage) (t : OnceType) (i : Nat) (vals : List OnceValue) :
    List OnceValue × Option RawMessage :=
  match t, vals[i]? with
  | .Once, some (.once done count) =>
    match intLiteral data.data with
    | some _ => (onceUnmarshalJSON done count vals, none)
    | none => (vals, some data)
  | .int, some (.int _) =>
    if data = "null" then (vals, none)
    else
      match intLiteral data.data with
      | some n => (vals.set i (.int n), none)
      | none => (vals, some data)
  | _, _ => (vals, some data)

/-- The zero value of each type of the instance. -/
def OnceType.Zero : OnceType → OnceValue
  | .int => .int 0
  | .Once => .once none none

/-- The library instance for `Once`.  The error of the fragment is the message
that could not be decoded. -/
def onceLib : Lib OnceType OnceValue RawMessage :=
  ⟨OnceType.Zero, onceUnmarshal⟩

/-- The fields of `struct { Done int; Count int; P Once }` with
`P = Once{&r.Done, &r.Count}`. -/
def onceFields (done count : Int) : List (FieldSlot OnceType OnceValue) :=
  [⟨⟨"Done", "", [], .int⟩, .int done⟩, ⟨⟨"Count", "", [], .int⟩, .int count⟩,
   ⟨⟨"P", "", [], .Once⟩, .once (some 0) (some 1)⟩]

/-! ## Notions used to state the claims -/

/-- A field is accessible when it is exported. -/
def accessible {Ty Val : Type} (s : FieldSlot Ty Val) : Bool :=
  s.field.PkgPath == ""

/-- The visit of field number `i` on a record, as the specification describes
one turn of the main loop: nothing happens when there is no such field, when
the field is not accessible or when its exposed name is not a key; a nil entry
puts the zero value of its type into the field; a raw entry is handed to
`json.Unmarshal` with the field as destination.  The result is the record
afterwards and the error of `json.Unmarshal`. -/
def visit {Ty Val Err : Type} (L : Lib Ty Val Err) (patches : Patches) (i : Nat)
    (record : List (FieldSlot Ty Val)) : List (FieldSlot Ty Val) × Option Err :=
  match record[i]? with
  | none => (record, none)
  | some s =>
    if accessible s then
      match patches.get (jsonFieldName s.field) with
      | none => (record, none)
      | some none => (record.set i ⟨s.field, L.Zero s.field.Typ⟩, none)
      | some (some raw) =>
        (writeBack record (L.Unmarshal raw s.field.Typ i (record.map (fun t => t.val))).1,
          (L.Unmarshal raw s.field.Typ i (record.map (fun t => t.val))).2)
    else (record, none)

/-- The record when field number `i` is reached: the fields before it have been
visited in the order of their declaration and none of the visits failed.
`none` when a visit before field `i` failed. -/
def reached {Ty Val Err : Type} (L : Lib Ty Val Err) (patches : Patches) :
    Nat → List (FieldSlot Ty Val) → Option (List (FieldSlot Ty Val))
  | 0, record => some record
  | i + 1, record =>
    match reached L patches i record with
    | none => none
    | some r =>
      match visit L patches i r with
      | (r', none) => some r'
      | (_, some _) => none

/-- The decode failure of a field under a confined decoder: the error of
decoding the raw value the patch set holds for the exposed name of an
accessible field into the field, when there is such a raw value and decoding
it fails. -/
def decodeFailure {Ty Val Err : Type} (U : LocalLib Ty Val Err) (patches : Patches)
    (s : FieldSlot Ty Val) : Option Err :=
  if accessible s then
    match patches.get (jsonFieldName s.field) with
    | some (some raw) => (U.Unmarshal raw s.field.Typ s.val).2
    | _ => none
  else none

/-- What the visit of a field leaves in it under a confined decoder: an
accessible field whose exposed name maps to a raw value holds what
`json.Unmarshal` of that value into the field, with the contents the field
has, leaves; an accessible field whose exposed name maps to nil holds the zero
value of its type; every other field holds what it held. -/
def confinedField {Ty Val Err : Type} (U : LocalLib Ty Val Err) (patches : Patches)
    (s : FieldSlot Ty Val) : FieldSlot Ty Val :=
  if accessible s then
    match patches.get (jsonFieldName s.field) with
    | some (some raw) => ⟨s.field, (U.Unmarshal raw s.field.Typ s.val).1⟩
    | some none => ⟨s.field, U.Zero s.field.Typ⟩
    | none => s
  else s

/-- The field loop under a confined decoder: the fields are visited in the order
of their declaration, each on its own contents, up to the first decode
failure. -/
def confinedLoop {Ty Val Err : Type} (U : LocalLib Ty Val Err) (patches : Patches) :
    List (FieldSlot Ty Val) → List (FieldSlot Ty Val) × Option (GoError Err)
  | [] => ([], none)
  | s :: rest =>
    match decodeFailure U patches s with
    | some e => (confinedField U patches s :: rest, some (.unmarshal e))
    | none =>
      (confinedField U patches s :: (confinedLoop U patches rest).1,
        (confinedLoop U patches rest).2)

/-- The resource is an addressable struct record: the unwrapping loop ends,
within `fuel` tests, at the struct with the given fields that lives in the
variable at address `a`. -/
def AddressableRecord {Ty Val : Type} (h : Heap Ty Val) (fuel : Nat)
    (resource : Option (Concrete Ty Val)) (a : Addr) (fields : List (FieldSlot Ty Val)) : Prop :=
  unwrap h fuel (ValueOf resource) = some ⟨some (.concrete (.struct fields)), some a, false⟩

/-- The kinds of the values on which the unwrapping loop calls `Elem`, in the
order of the calls. -/
def unwrapLayers {Ty Val : Type} (h : Heap Ty Val) : Nat → Value Ty Val → Option (List Kind)
  | 0, _ => none
  | fuel + 1, value =>
    if value.Kind = .Interface ∨ value.Kind = .Ptr then
      match value.Elem h with
      | none => none
      | some value' => (unwrapLayers h fuel value').map (fun ls => value.Kind :: ls)
    else some []

/-- The chain of indirection of a value is finite: the unwrapping loop, started
at the value, reaches a value that is neither an interface nor a pointer after
`n` calls of `Elem`. -/
inductive EndsAfter {Ty Val : Type} (h : Heap Ty Val) : Value Ty Val → Nat → Prop where
  | done (v : Value Ty Val) (hk : ¬ (v.Kind = .Interface ∨ v.Kind = .Ptr)) : EndsAfter h v 0
  | step (v v' : Value Ty Val) (n : Nat) (hk : v.Kind = .Interface ∨ v.Kind = .Ptr)
      (he : v.Elem h = some v') (hrest : EndsAfter h v' n) : EndsAfter h v (n + 1)
/-! ## Lemmas on the helpers -/

section Lemmas

variable {Ty Val Err : Type}

theorem splitChars_ne_nil (sep : Char) (cs : List Char) : splitChars sep cs ≠ [] := by
  induction cs with
  | nil => simp [splitChars]
  | cons c cs ih =>
    unfold splitChars
    split
    · simp
    · split <;> simp

theorem stringsSplit_ne_nil (s : String) (sep : Char) : stringsSplit s sep ≠ [] := by
  simp [stringsSplit, splitChars_ne_nil]

theorem splitChars_head (sep : Char) (cs : List Char) :
    (splitChars sep cs).headD [] = cs.takeWhile (fun c => c != sep) := by
  induction cs with
  | nil => simp [splitChars]
  | cons c cs ih =>
    unfold splitChars
    by_cases hc : c = sep
    · simp [hc]
    · simp only [hc, if_false]
      cases hs : splitChars sep cs with
      | nil => exact absurd hs (splitChars_ne_nil sep cs)
      | cons seg segs =>
        rw [hs] at ih
        simp only [List.headD_cons] at ih
        have hne : (c != sep) = true := by simpa using hc
        simp [List.takeWhile_cons, hne, ih]

theorem stringsSplit_head (s : String) :
    (stringsSplit s ',').headD "" = firstCommaSegment s := by
  unfold stringsSplit firstCommaSegment
  have h := splitChars_head ',' s.data
  cases hs : splitChars ',' s.data with
  | nil => exact absurd hs (splitChars_ne_nil _ _)
  | cons seg segs =>
    rw [hs] at h
    simp at h
    simp [h]

/-! ### The unwrapping loop -/

/-- `Elem` does not panic on an interface or a pointer. -/
theorem Elem_ne_none (h : Heap Ty Val) (v : Value Ty Val)
    (hk : v.Kind = .Interface ∨ v.Kind = .Ptr) : v.Elem h ≠ none := by
  rcases v with ⟨obj, fa, ro⟩
  rcases obj with _ | ⟨c⟩ | ⟨dyn⟩
  · simp [Value.Kind] at hk
  · rcases c with fs | t | k
    · simp [Value.Kind] at hk
    · cases t <;> simp [Value.Elem]
    · cases k <;> simp [Value.Kind, PlainKind.toKind] at hk
  · cases dyn <;> simp [Value.Elem]

/-- A value has kind `Struct` exactly when it is a struct with its fields. -/
theorem Kind_eq_Struct_iff (v : Value Ty Val) :
    v.Kind = .Struct ↔ ∃ fields, v.obj = some (.concrete (.struct fields)) := by
  rcases v with ⟨obj, fa, ro⟩
  rcases obj with _ | ⟨c⟩ | ⟨dyn⟩
  · simp [Value.Kind]
  · rcases c with fs | t | k
    · simp [Value.Kind]
    · simp [Value.Kind]
    · cases k <;> simp [Value.Kind, PlainKind.toKind]
  · simp [Value.Kind]

/-- The loop ends at a value that is neither an interface nor a pointer. -/
theorem unwrap_kind (h : Heap Ty Val) (fuel : Nat) (v v' : Value Ty Val)
    (hun : unwrap h fuel v = some v') : v'.Kind ≠ .Interface ∧ v'.Kind ≠ .Ptr := by
  induction fuel generalizing v with
  | zero => simp [unwrap] at hun
  | succ n ih =>
    rw [unwrap] at hun
    split at hun
    · cases hE : v.Elem h with
      | none => simp [hE] at hun
      | some v1 => simp only [hE] at hun; exact ih v1 hun
    · rename_i hc
      cases hun
      exact ⟨fun hI => hc (Or.inl hI), fun hP => hc (Or.inr hP)⟩

/-- More fuel does not change the value the loop ends at. -/
theorem unwrap_mono (h : Heap Ty Val) (fuel k : Nat) (v v' : Value Ty Val)
    (hun : unwrap h fuel v = some v') : unwrap h (fuel + k) v = some v' := by
  induction fuel generalizing v with
  | zero => simp [unwrap] at hun
  | succ n ih =>
    rw [unwrap] at hun
    rw [Nat.add_right_comm, unwrap]
    split at hun
    · rename_i hc
      rw [if_pos hc]
      cases hE : v.Elem h with
      | none => simp [hE] at hun
      | some v1 => simp only [hE] at hun ⊢; exact ih v1 hun
    · rename_i hc
      rw [if_neg hc]
      exact hun

/-- The loop never sets the read-only flag. -/
theorem unwrap_flagRO (h : Heap Ty Val) (fuel : Nat) (v v' : Value Ty Val)
    (hro : v.flagRO = false) (hun : unwrap h fuel v = some v') : v'.flagRO = false := by
  induction fuel generalizing v with
  | zero => simp [unwrap] at hun
  | succ n ih =>
    rw [unwrap] at hun
    split at hun
    · cases hE : v.Elem h with
      | none => simp [hE] at hun
      | some v1 =>
        simp only [hE] at hun
        refine ih v1 ?_ hun
        rcases v with ⟨obj, fa, ro⟩
        simp only at hro
        subst hro
        unfold Value.Elem at hE
        split at hE <;> simp at hE <;> subst hE <;> rfl
    · cases hun; exact hro

/-- An addressable value at the end of the loop is the contents of the variable
at its address. -/
theorem unwrap_obj (h : Heap Ty Val) (fuel : Nat) (v v' : Value Ty Val) (a : Addr)
    (hv : v.flagAddr = none) (hun : unwrap h fuel v = some v') (ha : v'.flagAddr = some a) :
    v'.obj = some (h a) := by
  suffices H : ∀ (n : Nat) (w : Value Ty Val), (∀ b, w.flagAddr = some b → w.obj = some (h b)) →
      unwrap h n w = some v' → v'.obj = some (h a) from
    H fuel v (fun b hb => by rw [hv] at hb; cases hb) hun
  intro n
  induction n with
  | zero => intro w _ hw; simp [unwrap] at hw
  | succ n ih =>
    intro w hinv hw
    rw [unwrap] at hw
    split at hw
    · cases hE : w.Elem h with
      | none => simp [hE] at hw
      | some v1 =>
        simp only [hE] at hw
        refine ih v1 ?_ hw
        intro b hb
        unfold Value.Elem at hE
        split at hE <;> simp at hE <;> subst hE <;> simp [Value.zero] at hb ⊢
        exact congrArg h hb
    · cases hw; exact hinv a ha

/-- Whenever the loop ends, its layers are defined. -/
theorem unwrapLayers_of_unwrap (h : Heap Ty Val) (fuel : Nat) (v v' : Value Ty Val)
    (hun : unwrap h fuel v = some v') : ∃ ls, unwrapLayers h fuel v = some ls := by
  induction fuel generalizing v with
  | zero => simp [unwrap] at hun
  | succ n ih =>
    rw [unwrap] at hun
    rw [unwrapLayers]
    split at hun
    · rename_i hc
      rw [if_pos hc]
      cases hE : v.Elem h with
      | none => simp [hE] at hun
      | some v1 =>
        simp only [hE] at hun
        obtain ⟨ls, hls⟩ := ih v1 hun
        exact ⟨v.Kind :: ls, by simp [hls]⟩
    · rename_i hc
      rw [if_neg hc]
      exact ⟨[], rfl⟩

/-- A value at the end of the loop is addressable exactly when the last layer
unwrapped was a pointer (or, when nothing was unwrapped, when the value the
loop started from was addressable). -/
theorem unwrap_addr_iff (h : Heap Ty Val) (fuel : Nat) (v v' : Value Ty Val) (ls : List Kind)
    (hun : unwrap h fuel v = some v') (hl : unwrapLayers h fuel v = some ls)
    (hobj : v'.obj ≠ none) :
    v'.flagAddr.isSome = true ↔
      (ls = [] ∧ v.flagAddr.isSome = true) ∨ ls.getLast? = some .Ptr := by
  induction fuel generalizing v ls with
  | zero => simp [unwrap] at hun
  | succ n ih =>
    rw [unwrap] at hun
    rw [unwrapLayers] at hl
    by_cases hc : v.Kind = .Interface ∨ v.Kind = .Ptr
    · rw [if_pos hc] at hun hl
      cases hE : v.Elem h with
      | none => simp [hE] at hun
      | some v1 =>
        simp only [hE] at hun hl
        cases hl1 : unwrapLayers h n v1 with
        | none => simp [hl1] at hl
        | some ls1 =>
          simp only [hl1, Option.map_some', Option.some.injEq] at hl
          subst hl
          have IH := ih v1 ls1 hun hl1
          cases ls1 with
          | nil =>
            have hv1 : v' = v1 := by
              cases n with
              | zero => simp [unwrapLayers] at hl1
              | succ m =>
                rw [unwrapLayers] at hl1
                rw [unwrap] at hun
                by_cases hc1 : v1.Kind = .Interface ∨ v1.Kind = .Ptr
                · rw [if_pos hc1] at hl1
                  cases hE1 : v1.Elem h with
                  | none => exact absurd hE1 (Elem_ne_none h v1 hc1)
                  | some v2 =>
                    simp only [hE1] at hl1
                    cases hl2 : unwrapLayers h m v2 <;> simp [hl2] at hl1
                · rw [if_neg hc1] at hun
                  exact (Option.some.inj hun).symm
            subst hv1
            rw [IH]
            simp only [true_and, List.getLast?_singleton, Option.some.injEq, reduceCtorEq,
              false_and, false_or, List.getLast?_nil, or_false]
            rcases v with ⟨obj, fa, ro⟩
            unfold Value.Elem at hE
            split at hE <;> simp at hE <;> subst hE <;>
              simp_all [Value.Kind, Value.zero]
          | cons k t =>
            rw [IH]
            simp [List.getLast?_cons_cons]
    · rw [if_neg hc] at hun hl
      cases hun
      cases hl
      simp

/-! ### The field loop -/

theorem writeBack_fields (r : List (FieldSlot Ty Val)) (vals : List Val) :
    (writeBack r vals).map (fun s => s.field) = r.map (fun s => s.field) := by
  induction r generalizing vals with
  | nil => rfl
  | cons s rest ih =>
    cases vals with
    | nil => rfl
    | cons v vs => simp [writeBack, ih]

theorem writeBack_length (r : List (FieldSlot Ty Val)) (vals : List Val) :
    (writeBack r vals).length = r.length := by
  have h := congrArg List.length (writeBack_fields r vals)
  simpa using h

/-- Writing back the values a record holds changes nothing. -/
theorem writeBack_self (r : List (FieldSlot Ty Val)) :
    writeBack r (r.map (fun s => s.val)) = r := by
  induction r with
  | nil => rfl
  | cons s rest ih => simp [writeBack, ih]

/-- Writing back the values of a record with one value replaced replaces the
value of that field. -/
theorem writeBack_set (r : List (FieldSlot Ty Val)) (i : Nat) (s : FieldSlot Ty Val) (v : Val)
    (hi : r[i]? = some s) :
    writeBack r ((r.map (fun t => t.val)).set i v) = r.set i ⟨s.field, v⟩ := by
  induction r generalizing i with
  | nil => simp at hi
  | cons t rest ih =>
    cases i with
    | zero =>
      simp only [List.getElem?_cons_zero, Option.some.injEq] at hi
      subst hi
      simp [writeBack, writeBack_self]
    | succ k =>
      simp only [List.getElem?_cons_succ] at hi
      simp [writeBack, ih k hi]

theorem set_fields (r : List (FieldSlot Ty Val)) (i : Nat) (s : FieldSlot Ty Val) (v : Val)
    (hi : r[i]? = some s) :
    (r.set i ⟨s.field, v⟩).map (fun t => t.field) = r.map (fun t => t.field) := by
  induction r generalizing i with
  | nil => simp at hi
  | cons t rest ih =>
    cases i with
    | zero =>
      simp only [List.getElem?_cons_zero, Option.some.injEq] at hi
      subst hi
      simp
    | succ k =>
      simp only [List.getElem?_cons_succ] at hi
      simp [ih k hi]

/-- The field loop keeps the descriptors of the fields. -/
theorem fieldLoop_fields (L : Lib Ty Val Err) (p : Patches) (ca ro : Bool) (n i : Nat)
    (r : List (FieldSlot Ty Val)) :
    (fieldLoop L p ca ro n i r).1.map (fun s => s.field) = r.map (fun s => s.field) := by
  induction n generalizing i r with
  | zero => rfl
  | succ n ih =>
    rw [fieldLoop]
    cases hi : r[i]? with
    | none => rfl
    | some s =>
      simp only []
      split
      · exact ih _ _
      · cases hg : p.get (jsonFieldName s.field) with
        | none => exact ih _ _
        | some o =>
          cases o with
          | none =>
            simp only []
            rw [ih, set_fields r i s _ hi]
          | some raw =>
            simp only []
            rcases hu : L.Unmarshal raw s.field.Typ i (r.map (fun t => t.val)) with ⟨vals, _ | e⟩
            · simp only [hu]
              rw [ih, writeBack_fields]
            · simp only [hu]
              rw [writeBack_fields]

/-- The field loop leaves as many fields as it found. -/
theorem patchFields_length (L : Lib Ty Val Err) (p : Patches) (ca ro : Bool)
    (fs : List (FieldSlot Ty Val)) : (patchFields L p ca ro fs).1.length = fs.length := by
  have h := congrArg List.length (fieldLoop_fields L p ca ro fs.length 0 fs)
  simpa [patchFields] using h

/-- An error of the field loop is an error of `json.Unmarshal`. -/
theorem fieldLoop_error (L : Lib Ty Val Err) (p : Patches) (ca ro : Bool) (n i : Nat)
    (r : List (FieldSlot Ty Val)) (e : GoError Err)
    (he : (fieldLoop L p ca ro n i r).2 = some e) : ∃ err, e = .unmarshal err := by
  induction n generalizing i r with
  | zero => simp [fieldLoop] at he
  | succ n ih =>
    rw [fieldLoop] at he
    cases hi : r[i]? with
    | none => simp [hi] at he
    | some s =>
      simp only [hi] at he
      split at he
      · exact ih _ _ he
      · cases hg : p.get (jsonFieldName s.field) with
        | none => simp only [hg] at he; exact ih _ _ he
        | some o =>
          cases o with
          | none => simp only [hg] at he; exact ih _ _ he
          | some raw =>
            simp only [hg] at he
            rcases hu : L.Unmarshal raw s.field.Typ i (r.map (fun t => t.val)) with ⟨vals, _ | err⟩
            · simp only [hu] at he; exact ih _ _ he
            · simp only [hu, Option.some.injEq] at he
              exact ⟨err, he.symm⟩

/-- The field loop reads the patch set at the exposed names of the fields
only. -/
theorem fieldLoop_congr (L : Lib Ty Val Err) (p q : Patches) (ca ro : Bool) (n i : Nat)
    (r : List (FieldSlot Ty Val))
    (hpq : ∀ f ∈ r.map (fun s => s.field), p.get (jsonFieldName f) = q.get (jsonFieldName f)) :
    fieldLoop L p ca ro n i r = fieldLoop L q ca ro n i r := by
  induction n generalizing i r with
  | zero => rfl
  | succ n ih =>
    rw [fieldLoop, fieldLoop]
    cases hi : r[i]? with
    | none => rfl
    | some s =>
      have hs : p.get (jsonFieldName s.field) = q.get (jsonFieldName s.field) :=
        hpq s.field (List.mem_map_of_mem _ (List.getElem?_mem hi))
      simp only [hs]
      split
      · exact ih _ _ hpq
      · cases hg : q.get (jsonFieldName s.field) with
        | none => exact ih _ _ hpq
        | some o =>
          cases o with
          | none =>
            simp only []
            exact ih _ _ (by rw [set_fields r i s _ hi]; exact hpq)
          | some raw =>
            simp only []
            rcases hu : L.Unmarshal raw s.field.Typ i (r.map (fun t => t.val)) with ⟨vals, _ | err⟩
            · simp only [hu]
              exact ih _ _ (by rw [writeBack_fields]; exact hpq)
            · simp only [hu]

/-- The field loop reads the patch set at the exposed names of the fields
only. -/
theorem patchFields_congr (L : Lib Ty Val Err) (p q : Patches) (canAddr ro : Bool)
    (fs : List (FieldSlot Ty Val))
    (hpq : ∀ s ∈ fs, p.get (jsonFieldName s.field) = q.get (jsonFieldName s.field)) :
    patchFields L p canAddr ro fs = patchFields L q canAddr ro fs := by
  unfold patchFields
  apply fieldLoop_congr
  intro f hf
  obtain ⟨s, hs, rfl⟩ := List.mem_map.mp hf
  exact hpq s hs

/-- Past the last field the loop does nothing. -/
theorem fieldLoop_past_end (L : Lib Ty Val Err) (p : Patches) (ca ro : Bool) (n i : Nat)
    (r : List (FieldSlot Ty Val)) (hi : r.length ≤ i) :
    fieldLoop L p ca ro n i r = (r, none) := by
  cases n with
  | zero => rfl
  | succ n =>
    rw [fieldLoop, List.getElem?_eq_none hi]

/-- When no key is the exposed name of an accessible field, the field loop
changes nothing and returns nil. -/
theorem fieldLoop_no_key (L : Lib Ty Val Err) (p : Patches) (n i : Nat)
    (r : List (FieldSlot Ty Val))
    (hno : ∀ s ∈ r, accessible s = true → p.get (jsonFieldName s.field) = none) :
    fieldLoop L p true false n i r = (r, none) := by
  induction n generalizing i with
  | zero => rfl
  | succ n ih =>
    rw [fieldLoop]
    cases hi : r[i]? with
    | none => rfl
    | some s =>
      simp only []
      by_cases hacc : accessible s = true
      · have hpk : s.field.PkgPath = "" := by simpa [accessible] using hacc
        simp [fieldCanInterface, hpk, hno s (List.getElem?_mem hi) hacc, ih]
      · have hpk : ¬ s.field.PkgPath = "" := by simpa [accessible] using hacc
        simp [fieldCanInterface, hpk, ih]

/-- One iteration of the field loop is the visit of the field. -/
theorem fieldLoop_succ (L : Lib Ty Val Err) (p : Patches) (n i : Nat)
    (r : List (FieldSlot Ty Val)) :
    fieldLoop L p true false (n + 1) i r =
      match visit L p i r with
      | (r', none) => fieldLoop L p true false n (i + 1) r'
      | (r', some e) => (r', some (.unmarshal e)) := by
  rw [fieldLoop]
  unfold visit
  cases hi : r[i]? with
  | none =>
    simp only []
    rw [fieldLoop_past_end]
    have := List.getElem?_eq_none_iff.mp hi
    omega
  | some s =>
    simp only []
    by_cases hpk : s.field.PkgPath = ""
    · simp only [accessible, fieldCanInterface, hpk]
      cases hg : p.get (jsonFieldName s.field) with
      | none => simp
      | some o =>
        cases o with
        | none => simp
        | some raw =>
          rcases hu : L.Unmarshal raw s.field.Typ i (r.map (fun t => t.val)) with ⟨vals, _ | e⟩ <;>
            simp [hu]
    · simp [accessible, fieldCanInterface, hpk]

theorem visit_fields (L : Lib Ty Val Err) (p : Patches) (i : Nat) (r : List (FieldSlot Ty Val)) :
    (visit L p i r).1.map (fun s => s.field) = r.map (fun s => s.field) := by
  unfold visit
  cases hi : r[i]? with
  | none => rfl
  | some s =>
    simp only []
    split
    · cases hg : p.get (jsonFieldName s.field) with
      | none => rfl
      | some o =>
        cases o with
        | none => exact set_fields r i s _ hi
        | some raw => exact writeBack_fields _ _
    · rfl

theorem reached_fields (L : Lib Ty Val Err) (p : Patches) (i : Nat)
    (fs r : List (FieldSlot Ty Val)) (hr : reached L p i fs = some r) :
    r.map (fun s => s.field) = fs.map (fun s => s.field) := by
  induction i generalizing r with
  | zero =>
    simp only [reached, Option.some.injEq] at hr
    rw [hr]
  | succ i ih =>
    rw [reached] at hr
    cases h0 : reached L p i fs with
    | none => simp [h0] at hr
    | some r0 =>
      simp only [h0] at hr
      rcases hv : visit L p i r0 with ⟨r1, _ | e⟩
      · simp only [hv, Option.some.injEq] at hr
        subst hr
        have := visit_fields L p i r0
        rw [hv] at this
        rw [this, ih r0 h0]
      · simp [hv] at hr

theorem reached_length (L : Lib Ty Val Err) (p : Patches) (i : Nat)
    (fs r : List (FieldSlot Ty Val)) (hr : reached L p i fs = some r) : r.length = fs.length := by
  have h := congrArg List.length (reached_fields L p i fs r hr)
  simpa using h

/-- A visit fails exactly when the field is accessible, its exposed name maps to
a raw value, and `json.Unmarshal` of that value with the field as destination
returns an error. -/
theorem visit_error_iff (L : Lib Ty Val Err) (p : Patches) (i : Nat)
    (r : List (FieldSlot Ty Val)) (e : Err) :
    (visit L p i r).2 = some e ↔
      ∃ s raw, r[i]? = some s ∧ accessible s = true ∧
        p.get (jsonFieldName s.field) = some (some raw) ∧
        (L.Unmarshal raw s.field.Typ i (r.map (fun t => t.val))).2 = some e := by
  unfold visit
  cases hi : r[i]? with
  | none => simp
  | some s =>
    simp only []
    cases hacc : accessible s
    · simp [hacc]
    · cases hg : p.get (jsonFieldName s.field) with
      | none => simp [hacc, hg]
      | some o => cases o <;> simp [hacc, hg]

/-- From the record reached at field `i`, the loop runs over the fields that are
left. -/
theorem patchFields_of_reached (L : Lib Ty Val Err) (p : Patches) (i : Nat)
    (fs r : List (FieldSlot Ty Val)) (hr : reached L p i fs = some r) (hi : i ≤ fs.length) :
    patchFields L p true false fs = fieldLoop L p true false (fs.length - i) i r := by
  induction i generalizing r with
  | zero =>
    simp only [reached, Option.some.injEq] at hr
    subst hr
    rfl
  | succ i ih =>
    rw [reached] at hr
    cases h0 : reached L p i fs with
    | none => simp [h0] at hr
    | some r0 =>
      simp only [h0] at hr
      rcases hv : visit L p i r0 with ⟨r1, _ | e⟩
      · simp only [hv, Option.some.injEq] at hr
        subst hr
        rw [ih r0 h0 (by omega)]
        have hn : fs.length - i = (fs.length - (i + 1)) + 1 := by omega
        rw [hn, fieldLoop_succ, hv]
      · simp [hv] at hr

/-- When every field is visited without failure, the loop returns nil and leaves
the record the last visit left. -/
theorem patchFields_of_reached_end (L : Lib Ty Val Err) (p : Patches)
    (fs r : List (FieldSlot Ty Val)) (hr : reached L p fs.length fs = some r) :
    patchFields L p true false fs = (r, none) := by
  rw [patchFields_of_reached L p fs.length fs r hr (Nat.le_refl _), Nat.sub_self]
  rfl

/-- When the visit of the field reached at `i` fails, the loop stops there and
returns the error of the visit. -/
theorem patchFields_of_failure (L : Lib Ty Val Err) (p : Patches) (i : Nat)
    (fs r r' : List (FieldSlot Ty Val)) (e : Err)
    (hr : reached L p i fs = some r) (hv : visit L p i r = (r', some e)) :
    patchFields L p true false fs = (r', some (.unmarshal e)) := by
  have hlen := reached_length L p i fs r hr
  have hi : i < fs.length := by
    by_contra hge
    have hnone : r[i]? = none := List.getElem?_eq_none (by omega)
    have : (visit L p i r).2 = none := by simp [visit, hnone]
    rw [hv] at this
    cases this
  rw [patchFields_of_reached L p i fs r hr (by omega)]
  have hn : fs.length - i = (fs.length - (i + 1)) + 1 := by omega
  rw [hn, fieldLoop_succ, hv]

/-- When field `k` is not reached, the visit of an earlier field failed. -/
theorem reached_none (L : Lib Ty Val Err) (p : Patches) (k : Nat)
    (fs : List (FieldSlot Ty Val)) (hk : reached L p k fs = none) :
    ∃ i r r' e, i < k ∧ reached L p i fs = some r ∧ visit L p i r = (r', some e) := by
  induction k with
  | zero => simp [reached] at hk
  | succ k ih =>
    rw [reached] at hk
    cases h0 : reached L p k fs with
    | none =>
      obtain ⟨i, r, r', e, hi, hr, hv⟩ := ih h0
      exact ⟨i, r, r', e, by omega, hr, hv⟩
    | some r0 =>
      simp only [h0] at hk
      rcases hv : visit L p k r0 with ⟨r1, _ | e⟩
      · simp [hv] at hk
      · exact ⟨k, r0, r1, e, by omega, h0, hv⟩

/-! ### The field loop under a confined decoder -/

theorem confinedLoop_ok (U : LocalLib Ty Val Err) (p : Patches) (fs : List (FieldSlot Ty Val))
    (hok : ∀ s ∈ fs, decodeFailure U p s = none) :
    confinedLoop U p fs = (fs.map (confinedField U p), none) := by
  induction fs with
  | nil => simp [confinedLoop]
  | cons s rest ih =>
    have hs : decodeFailure U p s = none := hok s (List.mem_cons_self _ _)
    have hr := ih (fun t ht => hok t (List.mem_cons_of_mem _ ht))
    rw [confinedLoop, hs, hr]
    simp

theorem confinedLoop_fail (U : LocalLib Ty Val Err) (p : Patches) (pre : List (FieldSlot Ty Val))
    (s : FieldSlot Ty Val) (post : List (FieldSlot Ty Val)) (e : Err)
    (hpre : ∀ t ∈ pre, decodeFailure U p t = none) (hs : decodeFailure U p s = some e) :
    confinedLoop U p (pre ++ s :: post) =
      (pre.map (confinedField U p) ++ confinedField U p s :: post, some (.unmarshal e)) := by
  induction pre with
  | nil => simp [confinedLoop, hs]
  | cons t pre ih =>
    have ht : decodeFailure U p t = none := hpre t (List.mem_cons_self _ _)
    have hr := ih (fun u hu => hpre u (List.mem_cons_of_mem _ hu))
    rw [List.cons_append, confinedLoop, ht, hr]
    simp

/-- Either no field fails to decode, or there is a first one that does. -/
theorem firstFailure (U : LocalLib Ty Val Err) (p : Patches) (fs : List (FieldSlot Ty Val)) :
    (∀ s ∈ fs, decodeFailure U p s = none) ∨
    ∃ pre s post e, fs = pre ++ s :: post ∧ (∀ t ∈ pre, decodeFailure U p t = none) ∧
      decodeFailure U p s = some e := by
  induction fs with
  | nil => left; simp
  | cons s rest ih =>
    cases hs : decodeFailure U p s with
    | some e => right; exact ⟨[], s, rest, e, rfl, by simp, hs⟩
    | none =>
      rcases ih with hok | ⟨pre, t, post, e, hfs, hpre, ht⟩
      · left
        intro u hu
        rcases List.mem_cons.mp hu with rfl | hu
        · exact hs
        · exact hok u hu
      · right
        refine ⟨s :: pre, t, post, e, by simp [hfs], ?_, ht⟩
        intro u hu
        rcases List.mem_cons.mp hu with rfl | hu
        · exact hs
        · exact hpre u hu

/-- Every field the loop leaves is the field it found or what its visit
leaves. -/
theorem confinedLoop_getElem (U : LocalLib Ty Val Err) (p : Patches) (fs : List (FieldSlot Ty Val))
    (i : Nat) (s : FieldSlot Ty Val) (hi : fs[i]? = some s) :
    (confinedLoop U p fs).1[i]? = some s ∨
    (confinedLoop U p fs).1[i]? = some (confinedField U p s) := by
  rcases firstFailure U p fs with hok | ⟨pre, t, post, e, hfs, hpre, ht⟩
  · right
    rw [confinedLoop_ok U p fs hok]
    simp [hi]
  · subst hfs
    rw [confinedLoop_fail U p pre t post e hpre ht]
    have heq : pre.map (confinedField U p) ++ confinedField U p t :: post
        = (pre ++ [t]).map (confinedField U p) ++ post := by simp
    rw [heq]
    have hsplit : pre ++ t :: post = (pre ++ [t]) ++ post := by simp
    rw [hsplit] at hi
    by_cases hlt : i < (pre ++ [t]).length
    · right
      rw [List.getElem?_append_left (by simpa using hlt)]
      rw [List.getElem?_append_left hlt] at hi
      rw [List.getElem?_map, hi]
      rfl
    · left
      have hge : (pre ++ [t]).length ≤ i := Nat.le_of_not_lt hlt
      rw [List.getElem?_append_right (by simpa using hge)]
      rw [List.getElem?_append_right hge] at hi
      simpa using hi

/-- The loop returns an error exactly when some field fails to decode. -/
theorem confinedLoop_error_iff (U : LocalLib Ty Val Err) (p : Patches) (fs : List (FieldSlot Ty Val)) :
    (confinedLoop U p fs).2 ≠ none ↔ ∃ s ∈ fs, decodeFailure U p s ≠ none := by
  rcases firstFailure U p fs with hok | ⟨pre, t, post, e, hfs, hpre, ht⟩
  · rw [confinedLoop_ok U p fs hok]
    constructor
    · intro h; exact absurd rfl h
    · rintro ⟨s, hs, hne⟩; exact absurd (hok s hs) hne
  · subst hfs
    rw [confinedLoop_fail U p pre t post e hpre ht]
    constructor
    · intro _; exact ⟨t, by simp, by simp [ht]⟩
    · intro _; simp

/-- Fields declared before the first failure are all visited. -/
theorem confinedLoop_append (U : LocalLib Ty Val Err) (p : Patches) (pre rest : List (FieldSlot Ty Val))
    (hpre : ∀ t ∈ pre, decodeFailure U p t = none) :
    confinedLoop U p (pre ++ rest) =
      (pre.map (confinedField U p) ++ (confinedLoop U p rest).1,
       (confinedLoop U p rest).2) := by
  induction pre with
  | nil => simp
  | cons t pre ih =>
    have ht : decodeFailure U p t = none := hpre t (List.mem_cons_self _ _)
    have hr := ih (fun u hu => hpre u (List.mem_cons_of_mem _ hu))
    rw [List.cons_append, confinedLoop, ht, hr]
    simp

/-- A field that is visited is left with what `confinedField` says. -/
theorem confinedLoop_head (U : LocalLib Ty Val Err) (p : Patches) (s : FieldSlot Ty Val)
    (rest : List (FieldSlot Ty Val)) :
    (confinedLoop U p (s :: rest)).1[0]? = some (confinedField U p s) := by
  rw [confinedLoop]
  cases decodeFailure U p s <;> simp

/-- The name `jsonFieldName` returns, in terms of the first comma-delimited
segment of the json tag. -/
theorem jsonFieldName_eq (field : StructField Ty) :
    jsonFieldName field =
      if firstCommaSegment (field.Tag.Get "json") = "" then field.Name
      else firstCommaSegment (field.Tag.Get "json") := by
  unfold jsonFieldName
  rw [stringsSplit_head]

/-- A field fails to decode exactly when it is accessible, its exposed name
maps to a raw value, and `json.Unmarshal` of that value into the field returns
an error. -/
theorem decodeFailure_eq_some (U : LocalLib Ty Val Err) (p : Patches) (s : FieldSlot Ty Val) (e : Err) :
    decodeFailure U p s = some e ↔
      accessible s = true ∧ ∃ raw, p.get (jsonFieldName s.field) = some (some raw) ∧
        (U.Unmarshal raw s.field.Typ s.val).2 = some e := by
  unfold decodeFailure
  cases hacc : accessible s
  · simp
  · cases hg : p.get (jsonFieldName s.field) with
    | none => simp
    | some o => cases o <;> simp

/-- A decoder lifted from a confined decoder is confined to it. -/
theorem ofLocal_confined (U : LocalLib Ty Val Err) : ConfinedTo (Lib.ofLocal U) U := by
  refine ⟨rfl, ?_⟩
  intro data t i vals v hv
  simp [Lib.ofLocal, hv]

theorem set_self (r : List (FieldSlot Ty Val)) (i : Nat) (s : FieldSlot Ty Val)
    (hi : r[i]? = some s) : r.set i s = r := by
  induction r generalizing i with
  | nil => simp at hi
  | cons t rest ih =>
    cases i with
    | zero =>
      simp only [List.getElem?_cons_zero, Option.some.injEq] at hi
      subst hi
      rfl
    | succ k =>
      simp only [List.getElem?_cons_succ] at hi
      simp [ih k hi]

theorem set_append_cons (pre rest : List (FieldSlot Ty Val)) (s x : FieldSlot Ty Val) :
    (pre ++ s :: rest).set pre.length x = pre ++ x :: rest := by
  induction pre with
  | nil => rfl
  | cons t pre ih => simp [ih]

/-- Under a confined decoder the visit of a field leaves in it what
`confinedField` says, changes no other field, and fails as `decodeFailure`
says. -/
theorem visit_confined (L : Lib Ty Val Err) (U : LocalLib Ty Val Err) (p : Patches) (i : Nat)
    (r : List (FieldSlot Ty Val)) (s : FieldSlot Ty Val) (hconf : ConfinedTo L U)
    (hi : r[i]? = some s) :
    visit L p i r = (r.set i (confinedField U p s), decodeFailure U p s) := by
  unfold visit confinedField decodeFailure
  rw [hi]
  simp only []
  cases hacc : accessible s
  · simp [set_self r i s hi]
  · simp only [if_true]
    cases hg : p.get (jsonFieldName s.field) with
    | none => simp [set_self r i s hi]
    | some o =>
      cases o with
      | none => simp [hconf.1]
      | some raw =>
        have hv : (r.map (fun t => t.val))[i]? = some s.val := by
          rw [List.getElem?_map, hi]; rfl
        simp only [hconf.2 raw s.field.Typ i _ s.val hv]
        rw [writeBack_set r i s _ hi]

/-- Under a confined decoder the field loop of `Struct` is the loop that visits
each field on its own contents. -/
theorem fieldLoop_confined (L : Lib Ty Val Err) (U : LocalLib Ty Val Err) (p : Patches)
    (hconf : ConfinedTo L U) (rest pre : List (FieldSlot Ty Val)) :
    fieldLoop L p true false rest.length pre.length (pre ++ rest) =
      (pre ++ (confinedLoop U p rest).1, (confinedLoop U p rest).2) := by
  induction rest generalizing pre with
  | nil => simp [fieldLoop, confinedLoop]
  | cons s rest ih =>
    have hi : (pre ++ s :: rest)[pre.length]? = some s := by
      rw [List.getElem?_append_right (Nat.le_refl _)]
      simp
    rw [List.length_cons, fieldLoop_succ, visit_confined L U p _ _ s hconf hi, set_append_cons,
      confinedLoop]
    cases hd : decodeFailure U p s with
    | some e => rfl
    | none =>
      simp only []
      have := ih (pre ++ [confinedField U p s])
      simp only [List.length_append, List.length_singleton, List.append_assoc,
        List.singleton_append] at this
      exact this

/-- Under a confined decoder the field loop of `Struct` is the loop that visits
each field on its own contents. -/
theorem patchFields_confined (L : Lib Ty Val Err) (U : LocalLib Ty Val Err) (p : Patches)
    (fs : List (FieldSlot Ty Val)) (hconf : ConfinedTo L U) :
    patchFields L p true false fs = confinedLoop U p fs := by
  have := fieldLoop_confined L U p hconf fs []
  simpa [patchFields] using this

/-- On an addressable struct record `Struct` runs the field loop on the
record and stores what the loop leaves. -/
theorem Struct_of_addressable (L : Lib Ty Val Err) (fuel : Nat) (h : Heap Ty Val)
    (resource : Option (Concrete Ty Val)) (p : Patches) (a : Addr)
    (fields : List (FieldSlot Ty Val)) (hrec : AddressableRecord h fuel resource a fields) :
    Struct L fuel h resource p =
      some (Function.update h a (.concrete (.struct (patchFields L p true false fields).1)),
            (patchFields L p true false fields).2) := by
  unfold AddressableRecord at hrec
  simp [Struct, hrec, Value.CanAddr]

/-- On an addressable struct record, with a confined decoder, `Struct` stores
what the loop under the confined decoder leaves. -/
theorem Struct_of_confined (L : Lib Ty Val Err) (U : LocalLib Ty Val Err) (fuel : Nat)
    (h : Heap Ty Val) (resource : Option (Concrete Ty Val)) (p : Patches) (a : Addr)
    (fields : List (FieldSlot Ty Val)) (hconf : ConfinedTo L U)
    (hrec : AddressableRecord h fuel resource a fields) :
    Struct L fuel h resource p =
      some (Function.update h a (.concrete (.struct (confinedLoop U p fields).1)),
            (confinedLoop U p fields).2) := by
  rw [Struct_of_addressable L fuel h resource p a fields hrec,
    patchFields_confined L U p fields hconf]

/-- Every addressable struct the loop ends at, starting from `ValueOf`, is an
addressable struct record. -/
theorem addressable_of_unwrap (h : Heap Ty Val) (fuel : Nat)
    (resource : Option (Concrete Ty Val)) (value : Value Ty Val)
    (hun : unwrap h fuel (ValueOf resource) = some value) (hk : value.Kind = .Struct)
    (hca : value.CanAddr = true) :
    ∃ a fields, AddressableRecord h fuel resource a fields ∧ h a = .concrete (.struct fields) := by
  have hro := unwrap_flagRO h fuel (ValueOf resource) value (by cases resource <;> rfl) hun
  have hfa0 : (ValueOf resource).flagAddr = none := by cases resource <;> rfl
  rcases value with ⟨obj, fa, ro⟩
  simp only at hro
  subst hro
  cases fa with
  | none => simp [Value.CanAddr] at hca
  | some a =>
    have hobj := unwrap_obj h fuel (ValueOf resource) _ a hfa0 hun rfl
    simp only at hobj
    subst hobj
    cases hha : h a with
    | iface dyn => simp [Value.Kind, hha] at hk
    | concrete c =>
      rcases c with fs | t | k
      · exact ⟨a, fs, by rw [AddressableRecord, hun, hha], hha⟩
      · simp [Value.Kind, hha] at hk
      · cases k <;> simp [Value.Kind, PlainKind.toKind, hha] at hk

/-- A pointer to a variable that holds a struct is an addressable struct
record. -/
theorem addressable_of_ptr (h : Heap Ty Val) (fuel : Nat) (a : Addr)
    (fields : List (FieldSlot Ty Val)) (ha : h a = .concrete (.struct fields)) :
    AddressableRecord h (fuel + 2) (some (.ptr (some a))) a fields := by
  simp [AddressableRecord, unwrap, ValueOf, Value.Kind, Value.Elem, ha]

/-! ### Lemmas for sequences of calls, patch sets and termination -/

/-- The record of an addressable struct record is what its variable holds. -/
theorem heap_of_addressable (h : Heap Ty Val) (fuel : Nat)
    (resource : Option (Concrete Ty Val)) (a : Addr) (fields : List (FieldSlot Ty Val))
    (hrec : AddressableRecord h fuel resource a fields) :
    h a = .concrete (.struct fields) := by
  have hobj := unwrap_obj h fuel (ValueOf resource) _ a (by cases resource <;> rfl) hrec rfl
  simpa using hobj.symm

/-- Writing a struct into a variable that holds a struct does not change the
path of the unwrapping loop: a value that is not the variable itself is
unwrapped to the same value, with the new struct if it ends at the variable. -/
theorem unwrap_update (h : Heap Ty Val) (a : Addr) (fs fs' : List (FieldSlot Ty Val))
    (ha : h a = .concrete (.struct fs)) (fuel : Nat) (v w : Value Ty Val)
    (hv : v.flagAddr ≠ some a) (hun : unwrap h fuel v = some w) :
    unwrap (Function.update h a (.concrete (.struct fs'))) fuel v =
      some (if w.flagAddr = some a then ⟨some (.concrete (.struct fs')), some a, w.flagRO⟩ else w) := by
  induction fuel generalizing v with
  | zero => simp [unwrap] at hun
  | succ n ih =>
    rw [unwrap] at hun ⊢
    by_cases hc : v.Kind = .Interface ∨ v.Kind = .Ptr
    · rw [if_pos hc] at hun ⊢
      rcases v with ⟨obj, fa, ro⟩
      rcases obj with _ | ⟨c⟩ | ⟨dyn⟩
      · simp [Value.Kind] at hc
      · rcases c with fs0 | t | k
        · simp [Value.Kind] at hc
        · cases t with
          | none =>
            simp only [Value.Elem] at hun ⊢
            exact ih _ (by simp [Value.zero]) hun
          | some b =>
            simp only [Value.Elem] at hun ⊢
            by_cases hb : b = a
            · subst hb
              rw [ha] at hun
              cases n with
              | zero => simp [unwrap] at hun
              | succ m =>
                simp only [unwrap, Value.Kind, reduceCtorEq, or_self, if_false,
                  Option.some.injEq] at hun
                subst hun
                simp [unwrap, Value.Kind, Function.update]
            · have hne : Function.update h a (Obj.concrete (Concrete.struct fs')) b = h b := by
                simp [Function.update, hb]
              rw [hne]
              exact ih _ (by simpa using hb) hun
        · cases k <;> simp [Value.Kind, PlainKind.toKind] at hc
      · cases dyn with
        | none =>
          simp only [Value.Elem] at hun ⊢
          exact ih _ (by simp [Value.zero]) hun
        | some c =>
          simp only [Value.Elem] at hun ⊢
          exact ih _ (by simp) hun
    · rw [if_neg hc] at hun ⊢
      cases hun
      simp [hv]

/-- After its record has been replaced, an addressable struct record is an
addressable struct record with the new fields. -/
theorem addressable_update (h : Heap Ty Val) (fuel : Nat)
    (resource : Option (Concrete Ty Val)) (a : Addr) (fields fields' : List (FieldSlot Ty Val))
    (hrec : AddressableRecord h fuel resource a fields) :
    AddressableRecord (Function.update h a (.concrete (.struct fields'))) fuel resource a fields' := by
  have ha := heap_of_addressable h fuel resource a fields hrec
  have hv : (ValueOf resource).flagAddr ≠ some a := by cases resource <;> simp [ValueOf, Value.zero]
  have := unwrap_update h a fields fields' ha fuel (ValueOf resource) _ hv hrec
  simpa [AddressableRecord] using this

/-- A finite chain of indirection is unwrapped within any larger number of
tests. -/
theorem unwrap_of_EndsAfter (h : Heap Ty Val) (v : Value Ty Val) (n : Nat)
    (hfin : EndsAfter h v n) (fuel : Nat) (hfuel : n < fuel) :
    ∃ v', unwrap h fuel v = some v' := by
  induction hfin generalizing fuel with
  | done v hk =>
    cases fuel with
    | zero => omega
    | succ m => exact ⟨v, by rw [unwrap, if_neg hk]⟩
  | step v v' n hk he _ ih =>
    cases fuel with
    | zero => omega
    | succ m =>
      obtain ⟨w, hw⟩ := ih m (by omega)
      exact ⟨w, by rw [unwrap, if_pos hk, he]; exact hw⟩

/-- On the heap of `var i interface{}; i = &i` the unwrapping loop does not end,
whether it is at the pointer or at the interface. -/
theorem unwrap_selfHeap (fuel : Nat) (fa : Option Addr) (ro : Bool) :
    unwrap selfHeap fuel ⟨some (.concrete (.ptr (some 0))), fa, ro⟩ = none ∧
    unwrap selfHeap fuel ⟨some (.iface (some (.ptr (some 0)))), fa, ro⟩ = none := by
  induction fuel generalizing fa ro with
  | zero => exact ⟨rfl, rfl⟩
  | succ n ih =>
    constructor
    · rw [unwrap]
      simp only [Value.Kind, reduceCtorEq, or_true, if_true, Value.Elem]
      exact (ih (some 0) ro).2
    · rw [unwrap]
      simp only [Value.Kind, reduceCtorEq, true_or, if_true, Value.Elem]
      exact (ih none ro).1

/-- A map has one value for each key, whatever the order of its entries. -/
theorem get_of_perm (p q : Patches) (hperm : p.Perm q) (hnd : (p.map Prod.fst).Nodup)
    (k : String) : p.get k = q.get k := by
  unfold Patches.get
  induction hperm with
  | nil => rfl
  | cons x _ ih =>
    simp only [List.map_cons, List.nodup_cons] at hnd
    rw [List.lookup_cons, List.lookup_cons, ih hnd.2]
  | swap x y l =>
    simp only [List.map_cons, List.nodup_cons, List.mem_cons, not_or] at hnd
    have hxy : y.1 ≠ x.1 := hnd.1.1
    rw [List.lookup_cons, List.lookup_cons, List.lookup_cons, List.lookup_cons]
    by_cases h1 : k = x.1
    · have h2 : ¬ k = y.1 := fun h2 => hxy (h2.symm.trans h1)
      have e1 : (k == x.1) = true := by simp [h1]
      have e2 : (k == y.1) = false := by simp [h2]
      simp only [e1, e2]
    · have e1 : (k == x.1) = false := by simp [h1]
      simp only [e1]
  | trans h1 _ ih1 ih2 =>
    rw [ih1 hnd]
    exact ih2 ((h1.map Prod.fst).nodup_iff.mp hnd)

/-- `Struct` reads the patch set through its index expression only. -/
theorem Struct_congr (L : Lib Ty Val Err) (fuel : Nat) (h : Heap Ty Val)
    (resource : Option (Concrete Ty Val)) (p q : Patches) (hpq : ∀ k, p.get k = q.get k) :
    Struct L fuel h resource p = Struct L fuel h resource q := by
  have key : ∀ (ca ro : Bool) (fs : List (FieldSlot Ty Val)),
      patchFields L p ca ro fs = patchFields L q ca ro fs :=
    fun ca ro fs => patchFields_congr L p q ca ro fs (fun s _ => hpq _)
  unfold Struct
  simp only [key]

/-- On an addressable struct record, with a confined decoder, `Struct` returns
nil exactly when no field fails to decode, and each field then holds what its
visit left. -/
theorem Struct_nil_iff (L : Lib Ty Val Err) (U : LocalLib Ty Val Err) (fuel : Nat)
    (h : Heap Ty Val) (resource : Option (Concrete Ty Val)) (p : Patches) (a : Addr)
    (fields : List (FieldSlot Ty Val)) (h' : Heap Ty Val) (hconf : ConfinedTo L U)
    (hrec : AddressableRecord h fuel resource a fields) :
    Struct L fuel h resource p = some (h', none) ↔
      (∀ s ∈ fields, decodeFailure U p s = none) ∧
        h' = Function.update h a (.concrete (.struct (fields.map (confinedField U p)))) := by
  rw [Struct_of_confined L U fuel h resource p a fields hconf hrec]
  constructor
  · intro hnil
    simp only [Option.some.injEq, Prod.mk.injEq] at hnil
    obtain ⟨hh, he⟩ := hnil
    have hok : ∀ s ∈ fields, decodeFailure U p s = none := by
      intro s hs
      by_contra hne
      exact (confinedLoop_error_iff U p fields).mpr ⟨s, hs, hne⟩ he
    refine ⟨hok, ?_⟩
    rw [confinedLoop_ok U p fields hok] at hh
    exact hh.symm
  · rintro ⟨hok, hh⟩
    rw [confinedLoop_ok U p fields hok, hh]

/-- The union of two patch sets, as the entries of the one followed by the
entries of the other, is read at a key as the first and, where the first has
no entry, as the second. -/
theorem get_append (P Q : Patches) (k : String) :
    Patches.get (P ++ Q) k = (P.get k).or (Q.get k) := by
  unfold Patches.get
  exact List.lookup_append

/-- A field that is patched again with the same patch set keeps the value of
the first patch, when decoding a raw value into the value it left succeeds
and leaves that value. -/
theorem confinedField_idem (U : LocalLib Ty Val Err) (p : Patches) (s : FieldSlot Ty Val)
    (hidem : accessible s = true → ∀ raw, p.get (jsonFieldName s.field) = some (some raw) →
      U.Unmarshal raw s.field.Typ (U.Unmarshal raw s.field.Typ s.val).1
        = ((U.Unmarshal raw s.field.Typ s.val).1, none)) :
    decodeFailure U p (confinedField U p s) = none ∧
    confinedField U p (confinedField U p s) = confinedField U p s := by
  unfold decodeFailure confinedField
  cases hacc : accessible s
  · simp [hacc]
  · cases hg : p.get (jsonFieldName s.field) with
    | none => simp [hacc, hg]
    | some o =>
      cases o with
      | none => simp [accessible] at hacc ⊢; simp [hacc, hg]
      | some raw =>
        have hi := hidem hacc raw hg
        simp [accessible] at hacc ⊢
        simp [hacc, hg, hi]

/-- A visit keeps the descriptor of the field. -/
theorem confinedField_field (U : LocalLib Ty Val Err) (p : Patches) (s : FieldSlot Ty Val) :
    (confinedField U p s).field = s.field := by
  unfold confinedField
  split
  · split <;> rfl
  · rfl

/-- A field whose exposed name is not a key is not decoded and keeps its
value. -/
theorem confined_absent (U : LocalLib Ty Val Err) (p : Patches) (s : FieldSlot Ty Val)
    (habs : p.get (jsonFieldName s.field) = none) :
    decodeFailure U p s = none ∧ confinedField U p s = s := by
  unfold decodeFailure confinedField
  rw [habs]
  constructor <;> split <;> rfl

/-- The visit of a field reads the patch set at the exposed name of
the field only. -/
theorem confined_congr (U : LocalLib Ty Val Err) (p q : Patches) (s : FieldSlot Ty Val)
    (hpq : p.get (jsonFieldName s.field) = q.get (jsonFieldName s.field)) :
    decodeFailure U p s = decodeFailure U q s ∧ confinedField U p s = confinedField U q s := by
  unfold decodeFailure confinedField
  rw [hpq]
  exact ⟨rfl, rfl⟩

/-- Patch sets without a common key act on different fields: applying the one
and then the other is applying their union, in either order. -/
theorem confinedField_disjoint (U : LocalLib Ty Val Err) (P Q : Patches) (s : FieldSlot Ty Val)
    (hdisj : ∀ k, P.get k = none ∨ Q.get k = none)
    (hP : decodeFailure U P s = none)
    (hQ : decodeFailure U Q (confinedField U P s) = none) :
    decodeFailure U (P ++ Q) s = none ∧
    confinedField U (P ++ Q) s = confinedField U Q (confinedField U P s) ∧
    decodeFailure U Q s = none ∧
    decodeFailure U P (confinedField U Q s) = none ∧
    confinedField U P (confinedField U Q s) = confinedField U Q (confinedField U P s) := by
  rcases hdisj (jsonFieldName s.field) with hPn | hQn
  · have hPs := (confined_absent U P s hPn).2
    have hU : Patches.get (P ++ Q) (jsonFieldName s.field) = Q.get (jsonFieldName s.field) := by
      rw [get_append, hPn]; rfl
    have hc := confined_congr U (P ++ Q) Q s hU
    have hPQ := confined_absent U P (confinedField U Q s)
      (by rw [confinedField_field]; exact hPn)
    rw [hPs] at hQ ⊢
    exact ⟨hc.1.trans hQ, hc.2, hQ, hPQ.1, hPQ.2⟩
  · have hQs := (confined_absent U Q s hQn).2
    have hU : Patches.get (P ++ Q) (jsonFieldName s.field) = P.get (jsonFieldName s.field) := by
      rw [get_append, hQn]; cases P.get (jsonFieldName s.field) <;> rfl
    have hc := confined_congr U (P ++ Q) P s hU
    have hQP := confined_absent U Q (confinedField U P s)
      (by rw [confinedField_field]; exact hQn)
    rw [hQs, hQP.2]
    exact ⟨hc.1.trans hP, hc.2, (confined_absent U Q s hQn).1, hP, rfl⟩

/-- The fragment of `json.Unmarshal` for scalar types, applied again to the
value it left, succeeds and leaves that value. -/
theorem jsonUnmarshal_idem (data : RawMessage) (t : GoType) (old : GoValue)
    (hok : (jsonUnmarshal data t old).2 = none) :
    jsonUnmarshal data t (jsonUnmarshal data t old).1 = ((jsonUnmarshal data t old).1, none) := by
  unfold jsonUnmarshal at hok ⊢
  by_cases hnull : data = "null"
  · simp [hnull]
  · simp only [hnull, if_false] at hok ⊢
    cases t with
    | int =>
      cases hi : intLiteral data.data with
      | none => simp [hi] at hok
      | some n => simp [hi]
    | string =>
      cases hi : stringLiteral data.data with
      | none => simp [hi] at hok
      | some n => simp [hi]
    | bool =>
      by_cases ht : data = "true"
      · simp [ht]
      · by_cases hf : data = "false"
        · simp [hf]
        · simp [ht, hf] at hok


/-- Under a confined decoder the loop reaches a field exactly when no field
declared before it fails to decode, and the fields before it then hold what
their visits left. -/
theorem reached_confined (L : Lib Ty Val Err) (U : LocalLib Ty Val Err) (p : Patches)
    (hconf : ConfinedTo L U) (pre rest : List (FieldSlot Ty Val))
    (hpre : ∀ t ∈ pre, decodeFailure U p t = none) :
    reached L p pre.length (pre ++ rest) = some (pre.map (confinedField U p) ++ rest) := by
  induction pre using List.reverseRecOn generalizing rest with
  | nil => rfl
  | append_singleton pre t ih =>
    have hpre0 : ∀ u ∈ pre, decodeFailure U p u = none :=
      fun u hu => hpre u (List.mem_append_left _ hu)
    have ht : decodeFailure U p t = none := hpre t (by simp)
    have h0 := ih (t :: rest) hpre0
    have hl : (pre ++ [t]).length = pre.length + 1 := by simp
    have happ : pre ++ [t] ++ rest = pre ++ t :: rest := by simp
    rw [hl, happ, reached, h0]
    have hi : (pre.map (confinedField U p) ++ t :: rest)[pre.length]? = some t := by
      have hlen : (pre.map (confinedField U p)).length ≤ pre.length := by simp
      rw [List.getElem?_append_right hlen]
      simp
    have hset := set_append_cons (pre.map (confinedField U p)) rest t (confinedField U p t)
    rw [List.length_map] at hset
    simp only [visit_confined L U p _ _ t hconf hi, ht, hset]
    simp

/-! ### The fields that a call leaves alone -/

/-- A confined decoder writes no field but its destination. -/
theorem writesOnly_of_confined (L : Lib Ty Val Err) (U : LocalLib Ty Val Err)
    (hconf : ConfinedTo L U) : WritesOnlyDestination L := by
  intro data t i vals v j hv hj
  rw [hconf.2 data t i vals v hv]
  exact List.getElem?_set_ne (Ne.symm hj)

/-- A field whose value `json.Unmarshal` left as it was is as it was. -/
theorem writeBack_getElem (r : List (FieldSlot Ty Val)) (vals : List Val) (j : Nat)
    (s : FieldSlot Ty Val) (hs : r[j]? = some s) (hv : vals[j]? = some s.val) :
    (writeBack r vals)[j]? = some s := by
  induction r generalizing vals j with
  | nil => simp at hs
  | cons t rest ih =>
    cases vals with
    | nil => simp at hv
    | cons v vs =>
      cases j with
      | zero =>
        simp only [List.getElem?_cons_zero, Option.some.injEq] at hs hv
        subst hs
        subst hv
        simp [writeBack]
      | succ k =>
        simp only [List.getElem?_cons_succ] at hs hv
        simp only [writeBack, List.getElem?_cons_succ]
        exact ih vs k hs hv

/-- A visit leaves every field but the one visited, and leaves the one visited
when it is not accessible or its exposed name is not a key. -/
theorem visit_frame (L : Lib Ty Val Err) (p : Patches) (i j : Nat)
    (r : List (FieldSlot Ty Val)) (s : FieldSlot Ty Val) (hframe : WritesOnlyDestination L)
    (hs : r[j]? = some s)
    (hskip : accessible s = false ∨ p.get (jsonFieldName s.field) = none) :
    (visit L p i r).1[j]? = some s := by
  unfold visit
  cases hi : r[i]? with
  | none => exact hs
  | some t =>
    simp only []
    by_cases hij : j = i
    · subst hij
      rw [hs] at hi
      cases hi
      rcases hskip with hacc | habs
      · simp [hacc, hs]
      · cases hacc : accessible s
        · simp [hs]
        · simp [habs, hs]
    · cases hacc : accessible t
      · simp [hs]
      · simp only [if_true]
        cases hg : p.get (jsonFieldName t.field) with
        | none => exact hs
        | some o =>
          cases o with
          | none =>
            simp only []
            rw [List.getElem?_set_ne (Ne.symm hij)]
            exact hs
          | some raw =>
            simp only []
            apply writeBack_getElem r _ j s hs
            have hv : (r.map (fun u => u.val))[i]? = some t.val := by
              rw [List.getElem?_map, hi]; rfl
            rw [hframe raw t.field.Typ i _ t.val j hv hij, List.getElem?_map, hs]
            rfl

/-- The field loop leaves every field that is not accessible or whose exposed
name is not a key, when `json.Unmarshal` writes no field but its destination. -/
theorem fieldLoop_frame (L : Lib Ty Val Err) (p : Patches) (n i j : Nat)
    (r : List (FieldSlot Ty Val)) (s : FieldSlot Ty Val) (hframe : WritesOnlyDestination L)
    (hs : r[j]? = some s)
    (hskip : accessible s = false ∨ p.get (jsonFieldName s.field) = none) :
    (fieldLoop L p true false n i r).1[j]? = some s := by
  induction n generalizing i r with
  | zero => exact hs
  | succ n ih =>
    rw [fieldLoop_succ]
    have hv := visit_frame L p i j r s hframe hs hskip
    rcases hvis : visit L p i r with ⟨r', _ | e⟩
    · rw [hvis] at hv
      exact ih (i + 1) r' hv
    · rw [hvis] at hv
      exact hv

end Lemmas

/-! ## The claims -/

section Claims

variable {Ty Val Err : Type}

/-- C1, as stated, fails: in `struct { Inner simpleWithTags; P *simpleWithTags }`
with `P = &r.Inner` and `Inner = {A: 1, B: "2"}`, the patch set
`{"P": {"a": 2}}` has no key "Inner"; `Struct` returns nil and `Inner` holds
`{A: 2, B: "2"}`, because `json.Unmarshal` decodes into what `P` points to. -/
theorem Struct_writes_through_pointer :
    AddressableRecord (heapAt0 (.struct (aliasedFields (.struct 1 "2")))) 2
      (some (.ptr (some 0))) 0 (aliasedFields (.struct 1 "2")) ∧
    (aliasedFields (.struct 1 "2"))[0]?
      = some ⟨⟨"Inner", "", [], .simpleWithTags⟩, .struct 1 "2"⟩ ∧
    Patches.get [("P", some objectA2)]
      (jsonFieldName (⟨"Inner", "", [], .simpleWithTags⟩ : StructField CompositeType)) = none ∧
    runOn compositeLib 2 (aliasedFields (.struct 1 "2")) [("P", some objectA2)]
      = some (.concrete (.struct (aliasedFields (.struct 2 "2"))), none) ∧
    (aliasedFields (.struct 2 "2"))[0]?
      ≠ some ⟨⟨"Inner", "", [], .simpleWithTags⟩, .struct 1 "2"⟩ := by
  refine ⟨rfl, rfl, rfl, ?_, ?_⟩ <;> decide

/-- C1, amended: on an addressable struct record, when `json.Unmarshal` writes
no field but the one it is given, a field whose exposed name is not a key of
the patch set holds after `Struct` the value it held before, whether `Struct`
returns nil or an error; `Struct` does return, and the record has the fields
it had. -/
theorem Struct_frame (L : Lib Ty Val Err) (fuel : Nat)
    (h : Heap Ty Val) (resource : Option (Concrete Ty Val)) (p : Patches) (a : Addr)
    (fields : List (FieldSlot Ty Val)) (hframe : WritesOnlyDestination L)
    (hrec : AddressableRecord h fuel resource a fields) :
    ∃ h' err fields', Struct L fuel h resource p = some (h', err) ∧
      h' a = .concrete (.struct fields') ∧ fields'.length = fields.length ∧
      ∀ (i : Nat) (s : FieldSlot Ty Val), fields[i]? = some s →
        p.get (jsonFieldName s.field) = none → fields'[i]? = some s := by
  refine ⟨_, _, (patchFields L p true false fields).1,
    Struct_of_addressable L fuel h resource p a fields hrec, by simp,
    patchFields_length L p true false fields, ?_⟩
  intro i s hi habs
  exact fieldLoop_frame L p fields.length 0 i fields s hframe hi (Or.inr habs)

/-- C1 amended, at the test `simple_populated`: the record `{A: 1, B: "2"}` and
the patch set `{"A": 2}`. -/
theorem Struct_frame_witness :
    WritesOnlyDestination goLib ∧
    AddressableRecord (heapOf (simpleResource 1 "2")) 2 ptr0 0 (simpleResourceFields 1 "2") ∧
    ∃ h' err fields', Struct goLib 2 (heapOf (simpleResource 1 "2")) ptr0 [("A", some "2")]
        = some (h', err) ∧
      h' 0 = .concrete (.struct fields') ∧ fields'.length = (simpleResourceFields 1 "2").length ∧
      ∀ (i : Nat) (s : FieldSlot GoType GoValue), (simpleResourceFields 1 "2")[i]? = some s →
        Patches.get [("A", some "2")] (jsonFieldName s.field) = none → fields'[i]? = some s :=
  ⟨writesOnly_of_confined goLib goLocal (ofLocal_confined goLocal), rfl,
    Struct_frame goLib 2 (heapOf (simpleResource 1 "2")) ptr0 [("A", some "2")] 0
      (simpleResourceFields 1 "2")
      (writesOnly_of_confined goLib goLocal (ofLocal_confined goLocal)) rfl⟩

/-- C2: the code does not zero every field named with a nil entry.  On the
record `{A: 1, B: "x"}` with the patch set `{"A": not json, "B": null}` the
field `B` is accessible and named with a nil entry, `Struct` returns the decode
error of `A`, and `B` still holds `"x"`, which is not the zero value of
`string`.  The doc comment of `Struct` says that a null patch message sets its
field to the zero value. -/
theorem Struct_null_after_failure_not_zero :
    AddressableRecord (heapOf (simpleResource 1 "x")) 2 ptr0 0 (simpleResourceFields 1 "x") ∧
    (simpleResourceFields 1 "x")[1]? = some ⟨⟨"B", "", [], .string⟩, .string "x"⟩ ∧
    accessible (⟨⟨"B", "", [], .string⟩, .string "x"⟩ : FieldSlot GoType GoValue) = true ∧
    Patches.get [("A", some "not json"), ("B", none)]
      (jsonFieldName (⟨"B", "", [], .string⟩ : StructField GoType)) = some none ∧
    runAt0 2 (simpleResource 1 "x") [("A", some "not json"), ("B", none)]
      = some (.concrete (.struct [⟨⟨"A", "", [], .int⟩, .int 1⟩,
                                  ⟨⟨"B", "", [], .string⟩, .string "x"⟩]),
              some (.unmarshal ⟨"not json", .int⟩)) ∧
    GoValue.string "x" ≠ goLib.Zero .string := by
  refine ⟨rfl, rfl, rfl, rfl, ?_, ?_⟩
  · decide
  · decide

/-- C3, as stated, fails twice.  A field that is absent from the patch set does
not keep its value: in `struct { Inner simpleWithTags; P *simpleWithTags }`
with `P = &r.Inner` the patch set `{"P": {"a": 2}}` returns nil and changes
`Inner`.  And a field named with a raw value does not hold a value given by
the raw value and the type: the field `Inner` holding `{A: 1, B: "2"}` or
`{A: 1, B: "3"}` is left, by the same raw value, at `{A: 2, B: "2"}` or at
`{A: 2, B: "3"}`. -/
theorem Struct_success_not_reference :
    (Patches.get [("P", some objectA2)] "Inner" = none ∧
      runOn compositeLib 2 (aliasedFields (.struct 1 "2")) [("P", some objectA2)]
        = some (.concrete (.struct (aliasedFields (.struct 2 "2"))), none)) ∧
    (runOn compositeLib 2 (withInnerFields (.struct 1 "2")) [("Inner", some objectA2)]
        = some (.concrete (.struct (withInnerFields (.struct 2 "2"))), none) ∧
      runOn compositeLib 2 (withInnerFields (.struct 1 "3")) [("Inner", some objectA2)]
        = some (.concrete (.struct (withInnerFields (.struct 2 "3"))), none) ∧
      ¬ ∃ decode : RawMessage → CompositeType → CompositeValue,
          decode objectA2 .simpleWithTags = .struct 2 "2" ∧
          decode objectA2 .simpleWithTags = .struct 2 "3") := by
  refine ⟨⟨rfl, by decide⟩, by decide, by decide, ?_⟩
  rintro ⟨decode, h1, h2⟩
  rw [h1] at h2
  revert h2
  decide

/-- C3, amended: whenever `Struct` returns nil on an addressable struct record,
and `json.Unmarshal` writes nothing but the field it is given, the record it
leaves is, field by field: what `json.Unmarshal` of the raw value into the
field, with the contents the field had, left, for an accessible field named
with a raw value; the zero value of its type for an accessible field named
with a nil entry; the value held before for every other field.  `Struct`
stores into no variable but the record. -/
theorem Struct_success_reference (L : Lib Ty Val Err) (U : LocalLib Ty Val Err) (fuel : Nat)
    (h : Heap Ty Val) (resource : Option (Concrete Ty Val)) (p : Patches) (a : Addr)
    (fields : List (FieldSlot Ty Val)) (h' : Heap Ty Val) (hconf : ConfinedTo L U)
    (hrec : AddressableRecord h fuel resource a fields)
    (hnil : Struct L fuel h resource p = some (h', none)) :
    h' a = .concrete (.struct (fields.map (confinedField U p))) ∧
    ∀ b, b ≠ a → h' b = h b := by
  obtain ⟨_, hh⟩ := (Struct_nil_iff L U fuel h resource p a fields h' hconf hrec).mp hnil
  subst hh
  constructor
  · simp
  · intro b hb
    simp [Function.update, hb]

/-- C3 amended, at the test `simple_unpopulated`: the record `{A: 0, B: ""}` and
the patch set `{"B": "BEE"}` give `{A: 0, B: "BEE"}`. -/
theorem Struct_success_reference_witness :
    ConfinedTo goLib goLocal ∧
    AddressableRecord (heapOf (simpleResource 0 "")) 2 ptr0 0 (simpleResourceFields 0 "") ∧
    Struct goLib 2 (heapOf (simpleResource 0 "")) ptr0 [("B", some "\"BEE\"")]
      = some (Function.update (heapOf (simpleResource 0 "")) 0
          (.concrete (simpleResource 0 "BEE")), none) ∧
    (Function.update (heapOf (simpleResource 0 "")) 0 (.concrete (simpleResource 0 "BEE")) 0
        = .concrete (.struct ((simpleResourceFields 0 "").map
            (confinedField goLocal [("B", some "\"BEE\"")]))) ∧
      ∀ b, b ≠ 0 → Function.update (heapOf (simpleResource 0 "")) 0
          (.concrete (simpleResource 0 "BEE")) b = heapOf (simpleResource 0 "") b) :=
  ⟨ofLocal_confined goLocal, rfl, rfl,
    Struct_success_reference goLib goLocal 2 (heapOf (simpleResource 0 "")) ptr0
      [("B", some "\"BEE\"")] 0 (simpleResourceFields 0 "") _ (ofLocal_confined goLocal) rfl rfl⟩

/-- C4, as stated, fails: in `struct { inner simpleWithTags; P *simpleWithTags }`
with `P = &r.inner`, the field `inner` is not exported and holds
`{A: 1, B: "2"}`; with the patch set `{"P": {"a": 2}}` `Struct` returns nil and
`inner` holds `{A: 2, B: "2"}`. -/
theorem Struct_unexported_written_through_pointer :
    AddressableRecord (heapAt0 (.struct (aliasedUnexportedFields (.struct 1 "2")))) 2
      (some (.ptr (some 0))) 0 (aliasedUnexportedFields (.struct 1 "2")) ∧
    (aliasedUnexportedFields (.struct 1 "2"))[0]?
      = some ⟨⟨"inner", "main", [], .simpleWithTags⟩, .struct 1 "2"⟩ ∧
    accessible (⟨⟨"inner", "main", [], .simpleWithTags⟩, .struct 1 "2"⟩ :
      FieldSlot CompositeType CompositeValue) = false ∧
    runOn compositeLib 2 (aliasedUnexportedFields (.struct 1 "2")) [("P", some objectA2)]
      = some (.concrete (.struct (aliasedUnexportedFields (.struct 2 "2"))), none) ∧
    (aliasedUnexportedFields (.struct 2 "2"))[0]?
      ≠ some ⟨⟨"inner", "main", [], .simpleWithTags⟩, .struct 1 "2"⟩ := by
  refine ⟨rfl, rfl, rfl, ?_, ?_⟩ <;> decide

/-- C4, amended: on an addressable struct record, when `json.Unmarshal` writes
no field but the one it is given, a field that is not exported holds after
`Struct` the value it held before, whatever the patch set holds and whether
`Struct` returns nil or an error. -/
theorem Struct_unexported_unchanged (L : Lib Ty Val Err)
    (fuel : Nat) (h : Heap Ty Val) (resource : Option (Concrete Ty Val)) (p : Patches)
    (a : Addr) (fields : List (FieldSlot Ty Val)) (hframe : WritesOnlyDestination L)
    (hrec : AddressableRecord h fuel resource a fields) :
    ∃ h' err fields', Struct L fuel h resource p = some (h', err) ∧
      h' a = .concrete (.struct fields') ∧ fields'.length = fields.length ∧
      ∀ (i : Nat) (s : FieldSlot Ty Val), fields[i]? = some s →
        s.field.PkgPath ≠ "" → fields'[i]? = some s := by
  refine ⟨_, _, (patchFields L p true false fields).1,
    Struct_of_addressable L fuel h resource p a fields hrec, by simp,
    patchFields_length L p true false fields, ?_⟩
  intro i s hi hpkg
  exact fieldLoop_frame L p fields.length 0 i fields s hframe hi
    (Or.inl (by simp [accessible, hpkg]))

/-- C4 amended, at the test `unexported fields are ignored`: the record
`{a: 5, B: 10}` and the patch set `{"a": 10, "b": 20}` give `{a: 5, B: 20}` and
nil. -/
theorem Struct_unexported_unchanged_witness :
    WritesOnlyDestination goLib ∧
    AddressableRecord (heapOf (resourceWithUnexported 5 10)) 2 ptr0 0
      (resourceWithUnexportedFields 5 10) ∧
    runAt0 2 (resourceWithUnexported 5 10) [("a", some "10"), ("b", some "20")]
      = some (.concrete (resourceWithUnexported 5 20), none) ∧
    ∃ h' err fields', Struct goLib 2 (heapOf (resourceWithUnexported 5 10)) ptr0
        [("a", some "10"), ("b", some "20")] = some (h', err) ∧
      h' 0 = .concrete (.struct fields') ∧
      fields'.length = (resourceWithUnexportedFields 5 10).length ∧
      ∀ (i : Nat) (s : FieldSlot GoType GoValue), (resourceWithUnexportedFields 5 10)[i]? = some s →
        s.field.PkgPath ≠ "" → fields'[i]? = some s :=
  ⟨writesOnly_of_confined goLib goLocal (ofLocal_confined goLocal), rfl, by decide,
    Struct_unexported_unchanged goLib 2 (heapOf (resourceWithUnexported 5 10)) ptr0
      [("a", some "10"), ("b", some "20")] 0 (resourceWithUnexportedFields 5 10)
      (writesOnly_of_confined goLib goLocal (ofLocal_confined goLocal)) rfl⟩


/-- C5: when the unwrapping loop ends at a value that is not a struct, `Struct`
returns the error whose message is "can't operate on non-struct: " followed by
the name of the kind of that value, for every patch set, and leaves the heap
as it is; the loop calls `Elem` on interfaces and pointers only, where `Elem`
does not panic. -/
theorem Struct_not_a_struct (L : Lib Ty Val Err) (fuel : Nat) (h : Heap Ty Val)
    (resource : Option (Concrete Ty Val)) (p : Patches) (value : Value Ty Val)
    (hun : unwrap h fuel (ValueOf resource) = some value) (hk : value.Kind ≠ .Struct) :
    Struct L fuel h resource p
      = some (h, some (.errorString ("can't operate on non-struct: " ++ kindNames value.Kind))) ∧
    ∀ v : Value Ty Val, (v.Kind = .Interface ∨ v.Kind = .Ptr) → v.Elem h ≠ none := by
  refine ⟨?_, fun v hv => Elem_ne_none h v hv⟩
  unfold Struct
  rw [hun]
  rcases value with ⟨obj, fa, ro⟩
  rcases obj with _ | ⟨c⟩ | ⟨dyn⟩
  · rfl
  · rcases c with fs | t | k
    · exact absurd rfl hk
    · rfl
    · rfl
  · rfl

/-- C5, at the test `not_a_struct` (`test.Resource` holds the number 5), at a
nil interface and at a nil pointer. -/
theorem Struct_not_a_struct_witness :
    (unwrap (testHeap (.plain .Int) (.plain .Int)) 3 (ValueOf testArg)
        = some ⟨some (.concrete (.plain .Int)), none, false⟩ ∧
      Struct goLib 3 (testHeap (.plain .Int) (.plain .Int)) testArg []
        = some (testHeap (.plain .Int) (.plain .Int),
            some (.errorString "can't operate on non-struct: int"))) ∧
    (unwrap (heapOf (.plain .Int)) 1 (ValueOf none) = some Value.zero ∧
      Struct goLib 1 (heapOf (.plain .Int)) none [("A", some "1")]
        = some (heapOf (.plain .Int), some (.errorString "can't operate on non-struct: invalid"))) ∧
    (unwrap (heapOf (.plain .Int)) 2 (ValueOf (some (.ptr none))) = some Value.zero ∧
      Struct goLib 2 (heapOf (.plain .Int)) (some (.ptr none)) [("A", some "1")]
        = some (heapOf (.plain .Int), some (.errorString "can't operate on non-struct: invalid"))) :=
  ⟨⟨rfl, (Struct_not_a_struct goLib 3 (testHeap (.plain .Int) (.plain .Int)) testArg []
      ⟨some (.concrete (.plain .Int)), none, false⟩ rfl (by decide)).1⟩,
   ⟨rfl, (Struct_not_a_struct goLib 1 (heapOf (.plain .Int)) none [("A", some "1")]
      Value.zero rfl (by decide)).1⟩,
   ⟨rfl, (Struct_not_a_struct goLib 2 (heapOf (.plain .Int)) (some (.ptr none)) [("A", some "1")]
      Value.zero rfl (by decide)).1⟩⟩

/-- C6: when the unwrapping loop ends at a struct and the last layer it
unwrapped was not a pointer (nothing was unwrapped, or the last layer was an
interface), `Struct` returns the error "unaddressable struct value" for every
patch set and leaves the heap as it is; when the last layer was a pointer,
`Struct` returns, and what it returns is not that error. -/
theorem Struct_unaddressable (L : Lib Ty Val Err) (fuel : Nat) (h : Heap Ty Val)
    (resource : Option (Concrete Ty Val)) (p : Patches) (value : Value Ty Val)
    (layers : List Kind)
    (hun : unwrap h fuel (ValueOf resource) = some value)
    (hl : unwrapLayers h fuel (ValueOf resource) = some layers)
    (hk : value.Kind = .Struct) :
    (layers.getLast? ≠ some .Ptr →
      Struct L fuel h resource p = some (h, some (.errorString "unaddressable struct value"))) ∧
    (layers.getLast? = some .Ptr →
      ∃ h' err, Struct L fuel h resource p = some (h', err) ∧
        err ≠ some (.errorString "unaddressable struct value")) := by
  have hobj : value.obj ≠ none := by
    intro hnone
    simp [Value.Kind, hnone] at hk
  have hiff := unwrap_addr_iff h fuel (ValueOf resource) value layers hun hl hobj
  have hv0 : (ValueOf resource).flagAddr.isSome = false := by
    cases resource <;> rfl
  simp only [hv0, Bool.false_eq_true, and_false, false_or] at hiff
  rcases value with ⟨obj, fa, ro⟩
  rcases obj with _ | ⟨c⟩ | ⟨dyn⟩
  · simp [Value.Kind] at hk
  · rcases c with fs | t | k
    · constructor
      · intro hlast
        have hfa : fa = none := by
          cases fa with
          | none => rfl
          | some b => exact absurd (hiff.mp rfl) hlast
        subst hfa
        simp [Struct, hun]
      · intro hlast
        have hfa : fa.isSome = true := hiff.mpr hlast
        cases fa with
        | none => simp at hfa
        | some b =>
          have hro : ro = false :=
            unwrap_flagRO h fuel (ValueOf resource) _ (by cases resource <;> rfl) hun
          subst hro
          have hS : Struct L fuel h resource p =
              some (Function.update h b (.concrete (.struct (patchFields L p true false fs).1)),
                (patchFields L p true false fs).2) := by
            simp [Struct, hun, Value.CanAddr]
          refine ⟨_, _, hS, ?_⟩
          intro hbad
          obtain ⟨err, herr⟩ := fieldLoop_error L p true false fs.length 0 fs _ hbad
          cases herr
    · simp [Value.Kind] at hk
    · cases k <;> simp [Value.Kind, PlainKind.toKind] at hk
  · simp [Value.Kind] at hk


/-- C6, at the test `unaddressable struct` (`test.Resource` holds `struct{}{}`,
reached through the pointer `&test.Resource`), at a struct passed by value, and
at a pointer to a struct. -/
theorem Struct_unaddressable_witness :
    (unwrapLayers (testHeap (.struct []) (.struct [])) 3 (ValueOf testArg)
        = some [.Ptr, .Interface] ∧
      Struct goLib 3 (testHeap (.struct []) (.struct [])) testArg []
        = some (testHeap (.struct []) (.struct []),
            some (.errorString "unaddressable struct value"))) ∧
    (unwrapLayers (heapOf (simpleResource 1 "2")) 1 (ValueOf (some (simpleResource 1 "2")))
        = some [] ∧
      Struct goLib 1 (heapOf (simpleResource 1 "2")) (some (simpleResource 1 "2")) [("A", some "2")]
        = some (heapOf (simpleResource 1 "2"),
            some (.errorString "unaddressable struct value"))) ∧
    (unwrapLayers (heapOf (simpleResource 1 "2")) 2 (ValueOf ptr0) = some [.Ptr] ∧
      ∃ h' err, Struct goLib 2 (heapOf (simpleResource 1 "2")) ptr0 [("A", some "2")]
          = some (h', err) ∧
        err ≠ some (.errorString "unaddressable struct value")) :=
  ⟨⟨rfl, (Struct_unaddressable goLib 3 (testHeap (.struct []) (.struct [])) testArg []
      ⟨some (.concrete (.struct [])), none, false⟩ [.Ptr, .Interface] rfl rfl rfl).1 (by decide)⟩,
   ⟨rfl, (Struct_unaddressable goLib 1 (heapOf (simpleResource 1 "2"))
      (some (simpleResource 1 "2")) [("A", some "2")]
      ⟨some (.concrete (simpleResource 1 "2")), none, false⟩ [] rfl rfl rfl).1 (by decide)⟩,
   ⟨rfl, (Struct_unaddressable goLib 2 (heapOf (simpleResource 1 "2")) ptr0 [("A", some "2")]
      ⟨some (.concrete (simpleResource 1 "2")), some 0, false⟩ [.Ptr] rfl rfl rfl).2 rfl⟩⟩


/-- C7, as stated, fails: on the record `{A: 1, B: 2}` the patch set
`{"A": not json}` fails at field `A` and the patch set `{"B": not json}` fails
at field `B`, and `Struct` returns the same error in both calls, so that no
function of the error gives the exposed name of the field that failed. -/
theorem Struct_error_has_no_field_name :
    runAt0 2 (twoInts 1 2) [("A", some "not json")]
      = some (.concrete (twoInts 1 2), some (.unmarshal ⟨"not json", .int⟩)) ∧
    runAt0 2 (twoInts 1 2) [("B", some "not json")]
      = some (.concrete (twoInts 1 2), some (.unmarshal ⟨"not json", .int⟩)) ∧
    decodeFailure goLocal [("A", some "not json")] ⟨⟨"A", "", [], .int⟩, .int 1⟩
      = some ⟨"not json", .int⟩ ∧
    decodeFailure goLocal [("B", some "not json")] ⟨⟨"B", "", [], .int⟩, .int 2⟩
      = some ⟨"not json", .int⟩ ∧
    ¬ ∃ nameOf : GoError JsonError → String,
        nameOf (.unmarshal ⟨"not json", .int⟩)
          = jsonFieldName (⟨"A", "", [], .int⟩ : StructField GoType) ∧
        nameOf (.unmarshal ⟨"not json", .int⟩)
          = jsonFieldName (⟨"B", "", [], .int⟩ : StructField GoType) := by
  refine ⟨by decide, by decide, by decide, by decide, ?_⟩
  rintro ⟨nameOf, hA, hB⟩
  rw [hA] at hB
  revert hB
  decide

/-- C7, amended: when the loop reaches an accessible field whose raw value
fails to decode (no visit of a field declared before it has failed), `Struct`
returns the error of `json.Unmarshal` for that field as it is, with nothing
added to it.  When `json.Unmarshal` writes nothing but the field it is given,
the loop reaches a field as soon as no field declared before it fails to
decode. -/
theorem Struct_decode_error (L : Lib Ty Val Err) (fuel : Nat) (h : Heap Ty Val)
    (resource : Option (Concrete Ty Val)) (p : Patches) (a : Addr)
    (fields : List (FieldSlot Ty Val)) (hrec : AddressableRecord h fuel resource a fields) :
    (∀ (i : Nat) (r : List (FieldSlot Ty Val)) (F : FieldSlot Ty Val) (raw : RawMessage)
        (e : Err), reached L p i fields = some r → r[i]? = some F → accessible F = true →
      p.get (jsonFieldName F.field) = some (some raw) →
      (L.Unmarshal raw F.field.Typ i (r.map (fun t => t.val))).2 = some e →
      ∃ h', Struct L fuel h resource p = some (h', some (.unmarshal e))) ∧
    (∀ (U : LocalLib Ty Val Err) (pre : List (FieldSlot Ty Val)) (F : FieldSlot Ty Val)
        (post : List (FieldSlot Ty Val)) (raw : RawMessage) (e : Err),
      ConfinedTo L U → fields = pre ++ F :: post →
      (∀ t ∈ pre, decodeFailure U p t = none) → accessible F = true →
      p.get (jsonFieldName F.field) = some (some raw) →
      (U.Unmarshal raw F.field.Typ F.val).2 = some e →
      ∃ h', Struct L fuel h resource p = some (h', some (.unmarshal e))) := by
  constructor
  · intro i r F raw e hreach hF hacc hraw hfail
    have hv : (visit L p i r).2 = some e :=
      (visit_error_iff L p i r e).mpr ⟨F, raw, hF, hacc, hraw, hfail⟩
    rw [Struct_of_addressable L fuel h resource p a fields hrec,
      patchFields_of_failure L p i fields r (visit L p i r).1 e hreach (by rw [← hv])]
    exact ⟨_, rfl⟩
  · intro U pre F post raw e hconf hfields hpre hacc hraw hfail
    subst hfields
    have hF : decodeFailure U p F = some e :=
      (decodeFailure_eq_some U p F e).mpr ⟨hacc, raw, hraw, hfail⟩
    rw [Struct_of_confined L U fuel h resource p a (pre ++ F :: post) hconf hrec,
      confinedLoop_fail U p pre F post e hpre hF]
    exact ⟨_, rfl⟩

/-- C7 amended, at the test `TestInvalidRawMessage`: the record `{A: 1, B: ""}`
and the patch set `{"A": not json}`. -/
theorem Struct_decode_error_witness :
    AddressableRecord (heapOf (simpleResource 1 "")) 2 ptr0 0 (simpleResourceFields 1 "") ∧
    reached goLib [("A", some "not json")] 0 (simpleResourceFields 1 "")
      = some (simpleResourceFields 1 "") ∧
    (goLib.Unmarshal "not json" .int 0 ((simpleResourceFields 1 "").map (fun t => t.val))).2
      = some ⟨"not json", .int⟩ ∧
    (goLocal.Unmarshal "not json" .int (.int 1)).2 = some ⟨"not json", .int⟩ ∧
    (∃ h', Struct goLib 2 (heapOf (simpleResource 1 "")) ptr0 [("A", some "not json")]
      = some (h', some (.unmarshal ⟨"not json", .int⟩))) ∧
    ∃ h', Struct goLib 2 (heapOf (simpleResource 1 "")) ptr0 [("A", some "not json")]
      = some (h', some (.unmarshal ⟨"not json", .int⟩)) :=
  ⟨rfl, rfl, by decide, by decide,
    (Struct_decode_error goLib 2 (heapOf (simpleResource 1 "")) ptr0
      [("A", some "not json")] 0 (simpleResourceFields 1 "") rfl).1 0 (simpleResourceFields 1 "")
      ⟨⟨"A", "", [], .int⟩, .int 1⟩ "not json" ⟨"not json", .int⟩ rfl rfl rfl rfl (by decide),
    (Struct_decode_error goLib 2 (heapOf (simpleResource 1 "")) ptr0
      [("A", some "not json")] 0 (simpleResourceFields 1 "") rfl).2 goLocal []
      ⟨⟨"A", "", [], .int⟩, .int 1⟩ [⟨⟨"B", "", [], .string⟩, .string ""⟩] "not json"
      ⟨"not json", .int⟩ (ofLocal_confined goLocal) rfl (by simp) rfl rfl (by decide)⟩

/-- C8: on an addressable struct record `Struct` returns, and it returns a
non-nil error exactly when the loop reaches some accessible field whose
exposed name is in the patch set with a raw value and that raw value fails to
decode into the field.  When `json.Unmarshal` writes nothing but the field it
is given, that is exactly when some accessible field whose exposed name is in
the patch set with a raw value fails to decode, with the contents it had
before the call. -/
theorem Struct_error_iff (L : Lib Ty Val Err) (fuel : Nat) (h : Heap Ty Val)
    (resource : Option (Concrete Ty Val)) (p : Patches) (a : Addr)
    (fields : List (FieldSlot Ty Val)) (hrec : AddressableRecord h fuel resource a fields) :
    ∃ h' err, Struct L fuel h resource p = some (h', err) ∧
      (err ≠ none ↔ ∃ (i : Nat) (r : List (FieldSlot Ty Val)) (s : FieldSlot Ty Val)
        (raw : RawMessage), reached L p i fields = some r ∧ r[i]? = some s ∧
          accessible s = true ∧ p.get (jsonFieldName s.field) = some (some raw) ∧
          (L.Unmarshal raw s.field.Typ i (r.map (fun t => t.val))).2 ≠ none) ∧
      ∀ U : LocalLib Ty Val Err, ConfinedTo L U →
        (err ≠ none ↔ ∃ s ∈ fields, accessible s = true ∧
          ∃ raw, p.get (jsonFieldName s.field) = some (some raw) ∧
            (U.Unmarshal raw s.field.Typ s.val).2 ≠ none) := by
  refine ⟨_, _, Struct_of_addressable L fuel h resource p a fields hrec, ?_, ?_⟩
  · constructor
    · intro herr
      cases hend : reached L p fields.length fields with
      | some r =>
        rw [patchFields_of_reached_end L p fields r hend] at herr
        exact absurd rfl herr
      | none =>
        obtain ⟨i, r, r', e, _, hr, hv⟩ := reached_none L p fields.length fields hend
        have hv2 : (visit L p i r).2 = some e := by rw [hv]
        obtain ⟨s, raw, hs, hacc, hraw, hfail⟩ := (visit_error_iff L p i r e).mp hv2
        exact ⟨i, r, s, raw, hr, hs, hacc, hraw, by simp [hfail]⟩
    · rintro ⟨i, r, s, raw, hr, hs, hacc, hraw, hne⟩
      cases hu : (L.Unmarshal raw s.field.Typ i (r.map (fun t => t.val))).2 with
      | none => exact absurd hu hne
      | some e =>
        have hv : (visit L p i r).2 = some e :=
          (visit_error_iff L p i r e).mpr ⟨s, raw, hs, hacc, hraw, hu⟩
        rw [patchFields_of_failure L p i fields r (visit L p i r).1 e hr (by rw [← hv])]
        simp
  · intro U hconf
    rw [patchFields_confined L U p fields hconf, confinedLoop_error_iff]
    constructor
    · rintro ⟨s, hs, hne⟩
      cases hd : decodeFailure U p s with
      | none => exact absurd hd hne
      | some e =>
        obtain ⟨hacc, raw, hraw, hfail⟩ := (decodeFailure_eq_some U p s e).mp hd
        exact ⟨s, hs, hacc, raw, hraw, by simp [hfail]⟩
    · rintro ⟨s, hs, hacc, raw, hraw, hne⟩
      cases hu : (U.Unmarshal raw s.field.Typ s.val).2 with
      | none => exact absurd hu hne
      | some e =>
        refine ⟨s, hs, ?_⟩
        rw [(decodeFailure_eq_some U p s e).mpr ⟨hacc, raw, hraw, hu⟩]
        simp

/-- C8, at the test `TestInvalidRawMessage`: on the record `{A: 1, B: ""}` the
empty patch set gives nil and the patch set `{"A": not json}` gives an
error. -/
theorem Struct_error_iff_witness :
    AddressableRecord (heapOf (simpleResource 1 "")) 2 ptr0 0 (simpleResourceFields 1 "") ∧
    runAt0 2 (simpleResource 1 "") [] = some (.concrete (simpleResource 1 ""), none) ∧
    runAt0 2 (simpleResource 1 "") [("A", some "not json")]
      = some (.concrete (simpleResource 1 ""), some (.unmarshal ⟨"not json", .int⟩)) ∧
    ∃ h' err, Struct goLib 2 (heapOf (simpleResource 1 "")) ptr0 [("A", some "not json")]
        = some (h', err) ∧
      (err ≠ none ↔ ∃ (i : Nat) (r : List (FieldSlot GoType GoValue)) (s : FieldSlot GoType GoValue)
        (raw : RawMessage),
          reached goLib [("A", some "not json")] i (simpleResourceFields 1 "") = some r ∧
          r[i]? = some s ∧ accessible s = true ∧
          Patches.get [("A", some "not json")] (jsonFieldName s.field) = some (some raw) ∧
          (goLib.Unmarshal raw s.field.Typ i (r.map (fun t => t.val))).2 ≠ none) ∧
      ∀ U : LocalLib GoType GoValue JsonError, ConfinedTo goLib U →
        (err ≠ none ↔ ∃ s ∈ simpleResourceFields 1 "", accessible s = true ∧
          ∃ raw, Patches.get [("A", some "not json")] (jsonFieldName s.field)
              = some (some raw) ∧
            (U.Unmarshal raw s.field.Typ s.val).2 ≠ none) :=
  ⟨rfl, by decide, by decide,
    Struct_error_iff goLib 2 (heapOf (simpleResource 1 "")) ptr0 [("A", some "not json")] 0
      (simpleResourceFields 1 "") rfl⟩

/-- C9, as stated, fails: in
`struct { P *simpleWithTags; X int; Inner simpleWithTags }` with `P = &r.Inner`
and `Inner = {A: 1, B: "2"}`, the patch set `{"P": {"a": 2}, "X": "oops"}` (a
JSON string for the `int` field) fails at `X`; `Inner` is declared after `X`
and holds `{A: 2, B: "2"}`, because the decode of `P` wrote into it. -/
theorem Struct_later_field_written_before_failure :
    runOn compositeLib 2 (pointerFirstFields 7 (.struct 1 "2"))
        [("P", some objectA2), ("X", some "\"oops\"")]
      = some (.concrete (.struct (pointerFirstFields 7 (.struct 2 "2"))),
          some (.unmarshal "\"oops\"")) ∧
    (pointerFirstFields 7 (.struct 1 "2"))[1]? = some ⟨⟨"X", "", [], .int⟩, .int 7⟩ ∧
    (pointerFirstFields 7 (.struct 1 "2"))[2]?
      = some ⟨⟨"Inner", "", [], .simpleWithTags⟩, .struct 1 "2"⟩ ∧
    (pointerFirstFields 7 (.struct 2 "2"))[2]?
      ≠ (pointerFirstFields 7 (.struct 1 "2"))[2]? := by
  refine ⟨by decide, rfl, rfl, by decide⟩

/-- C9, amended: when `json.Unmarshal` writes nothing but the field it is given,
the loop reaches the accessible field `F` and the raw value of `F` fails to
decode, `Struct` returns that error and rolls nothing back: every field
declared before `F` holds what its visit left (the zero value for a nil entry,
what decoding left for a raw entry, the value held before otherwise), `F`
holds what `json.Unmarshal` left in it, and every field declared after `F`
holds the value it held before the call. -/
theorem Struct_no_rollback (L : Lib Ty Val Err) (U : LocalLib Ty Val Err) (fuel : Nat)
    (h : Heap Ty Val) (resource : Option (Concrete Ty Val)) (p : Patches) (a : Addr)
    (pre : List (FieldSlot Ty Val)) (F : FieldSlot Ty Val) (post : List (FieldSlot Ty Val))
    (raw : RawMessage) (v : Val) (e : Err) (hconf : ConfinedTo L U)
    (hrec : AddressableRecord h fuel resource a (pre ++ F :: post))
    (hpre : ∀ t ∈ pre, decodeFailure U p t = none)
    (hacc : accessible F = true) (hraw : p.get (jsonFieldName F.field) = some (some raw))
    (hfail : U.Unmarshal raw F.field.Typ F.val = (v, some e)) :
    Struct L fuel h resource p =
      some (Function.update h a
          (.concrete (.struct (pre.map (confinedField U p) ++ ⟨F.field, v⟩ :: post))),
        some (.unmarshal e)) := by
  have hF : decodeFailure U p F = some e :=
    (decodeFailure_eq_some U p F e).mpr ⟨hacc, raw, hraw, by rw [hfail]⟩
  have href : confinedField U p F = ⟨F.field, v⟩ := by
    simp [confinedField, hacc, hraw, hfail]
  rw [Struct_of_confined L U fuel h resource p a (pre ++ F :: post) hconf hrec,
    confinedLoop_fail U p pre F post e hpre hF, href]

/-- C9 amended, at the record `{A: 1, B: 2, C: "c"}` with the patch set
`{"A": null, "B": not json, "C": "x"}`: `A` is zeroed, `B` fails, `C` keeps
`"c"`. -/
theorem Struct_no_rollback_witness :
    ConfinedTo goLib goLocal ∧
    AddressableRecord (heapOf (.struct (abcFields 1 2 "c"))) 2 ptr0 0
      ([⟨⟨"A", "", [], .int⟩, .int 1⟩] ++ ⟨⟨"B", "", [], .int⟩, .int 2⟩ ::
        [⟨⟨"C", "", [], .string⟩, .string "c"⟩]) ∧
    Struct goLib 2 (heapOf (.struct (abcFields 1 2 "c"))) ptr0
        [("A", none), ("B", some "not json"), ("C", some "\"x\"")] =
      some (Function.update (heapOf (.struct (abcFields 1 2 "c"))) 0
          (.concrete (.struct (([⟨⟨"A", "", [], .int⟩, .int 1⟩] : List (FieldSlot GoType GoValue)).map
              (confinedField goLocal [("A", none), ("B", some "not json"), ("C", some "\"x\"")])
            ++ ⟨⟨"B", "", [], .int⟩, .int 2⟩ :: [⟨⟨"C", "", [], .string⟩, .string "c"⟩]))),
        some (.unmarshal ⟨"not json", .int⟩)) ∧
    runAt0 2 (.struct (abcFields 1 2 "c"))
        [("A", none), ("B", some "not json"), ("C", some "\"x\"")]
      = some (.concrete (.struct (abcFields 0 2 "c")), some (.unmarshal ⟨"not json", .int⟩)) :=
  ⟨ofLocal_confined goLocal, rfl,
    Struct_no_rollback goLib goLocal 2 (heapOf (.struct (abcFields 1 2 "c"))) ptr0
      [("A", none), ("B", some "not json"), ("C", some "\"x\"")] 0
      [⟨⟨"A", "", [], .int⟩, .int 1⟩] ⟨⟨"B", "", [], .int⟩, .int 2⟩
      [⟨⟨"C", "", [], .string⟩, .string "c"⟩] "not json" (.int 2) ⟨"not json", .int⟩
      (ofLocal_confined goLocal) rfl (by decide) rfl rfl (by decide),
    by decide⟩

/-- C10: `jsonFieldName` returns the first comma-delimited segment of the json
tag of the field when that segment is not empty, and the declared identifier
otherwise (no json tag, an empty tag, a tag that starts with a comma); `Struct`
reads the patch set at these names only, so that two patch sets that agree on
them give the same result; the record with the tags "a" and "b" is patched by the
key "a" and not by the key "A". -/
theorem jsonFieldName_spec (L : Lib Ty Val Err) (fuel : Nat) (h : Heap Ty Val)
    (resource : Option (Concrete Ty Val)) (p q : Patches) (a : Addr)
    (fields : List (FieldSlot Ty Val)) (field : StructField Ty)
    (hrec : AddressableRecord h fuel resource a fields)
    (hpq : ∀ s ∈ fields, p.get (jsonFieldName s.field) = q.get (jsonFieldName s.field)) :
    (jsonFieldName field =
      if firstCommaSegment (field.Tag.Get "json") = "" then field.Name
      else firstCommaSegment (field.Tag.Get "json")) ∧
    (field.Tag.lookup "json" = none → jsonFieldName field = field.Name) ∧
    (field.Tag.Get "json" = "" → jsonFieldName field = field.Name) ∧
    (∀ rest, (field.Tag.Get "json").data = ',' :: rest → jsonFieldName field = field.Name) ∧
    Struct L fuel h resource p = Struct L fuel h resource q ∧
    runAt0 2 (simpleWithTags 1 "2") [("a", some "2")]
      = some (.concrete (simpleWithTags 2 "2"), none) ∧
    runAt0 2 (simpleWithTags 1 "2") [("A", some "2")]
      = some (.concrete (simpleWithTags 1 "2"), none) := by
  have hempty : field.Tag.Get "json" = "" → jsonFieldName field = field.Name := by
    intro ht
    rw [jsonFieldName_eq, ht]
    rfl
  refine ⟨jsonFieldName_eq field, ?_, hempty, ?_, ?_, by decide, by decide⟩
  · intro hnone
    apply hempty
    simp [StructTag.Get, hnone]
  · intro rest hrest
    rw [jsonFieldName_eq]
    have hseg : firstCommaSegment (field.Tag.Get "json") = "" := by
      unfold firstCommaSegment
      rw [hrest]
      rfl
    rw [if_pos hseg]
  · rw [Struct_of_addressable L fuel h resource p a fields hrec,
      Struct_of_addressable L fuel h resource q a fields hrec,
      patchFields_congr L p q true false fields hpq]

/-- C10, at the record of the test `simple_populated_with_tags` and the field
tagged `json:",omitempty"`: the patch sets `{"a": 2}` and `{"a": 2, "A": 7}`
agree on the exposed names "a" and "b". -/
theorem jsonFieldName_spec_witness :
    AddressableRecord (heapOf (simpleWithTags 1 "2")) 2 ptr0 0 (simpleWithTagsFields 1 "2") ∧
    (∀ s ∈ simpleWithTagsFields 1 "2",
      Patches.get [("a", some "2")] (jsonFieldName s.field)
        = Patches.get [("a", some "2"), ("A", some "7")] (jsonFieldName s.field)) ∧
    jsonFieldName (⟨"Name", "", [("json", ",omitempty")], GoType.string⟩ : StructField GoType)
      = "Name" ∧
    Struct goLib 2 (heapOf (simpleWithTags 1 "2")) ptr0 [("a", some "2")]
      = Struct goLib 2 (heapOf (simpleWithTags 1 "2")) ptr0 [("a", some "2"), ("A", some "7")] :=
  have hpq : ∀ s ∈ simpleWithTagsFields 1 "2",
      Patches.get [("a", some "2")] (jsonFieldName s.field)
        = Patches.get [("a", some "2"), ("A", some "7")] (jsonFieldName s.field) := by
    decide
  have hspec := jsonFieldName_spec goLib 2 (heapOf (simpleWithTags 1 "2")) ptr0
    [("a", some "2")] [("a", some "2"), ("A", some "7")] 0 (simpleWithTagsFields 1 "2")
    ⟨"Name", "", [("json", ",omitempty")], GoType.string⟩ rfl hpq
  ⟨rfl, hpq, hspec.2.2.2.1 _ rfl, hspec.2.2.2.2.1⟩



/-- C11: on an addressable struct record, when no key of the patch set is the
exposed name of an accessible field (the empty patch set, unknown keys, keys
that differ from an exposed name in letter case), `Struct` returns nil and
leaves every variable, the record included, as it was. -/
theorem Struct_no_matching_key (L : Lib Ty Val Err) (fuel : Nat) (h : Heap Ty Val)
    (resource : Option (Concrete Ty Val)) (p : Patches) (a : Addr)
    (fields : List (FieldSlot Ty Val)) (hrec : AddressableRecord h fuel resource a fields)
    (hno : ∀ s ∈ fields, accessible s = true → p.get (jsonFieldName s.field) = none) :
    Struct L fuel h resource p = some (h, none) := by
  have hloop : patchFields L p true false fields = (fields, none) :=
    fieldLoop_no_key L p fields.length 0 fields hno
  rw [Struct_of_addressable L fuel h resource p a fields hrec, hloop,
    ← heap_of_addressable h fuel resource a fields hrec, Function.update_eq_self]

/-- C11, at the test `empty_valid_patch` (the record `{A: 0, B: "A"}` and the
empty patch set) and at the same record with the keys "a" and "unknown". -/
theorem Struct_no_matching_key_witness :
    (AddressableRecord (heapOf (simpleResource 0 "A")) 2 ptr0 0 (simpleResourceFields 0 "A") ∧
      Struct goLib 2 (heapOf (simpleResource 0 "A")) ptr0 []
        = some (heapOf (simpleResource 0 "A"), none)) ∧
    ((∀ s ∈ simpleResourceFields 0 "A", accessible s = true →
        Patches.get [("a", some "2"), ("unknown", none)] (jsonFieldName s.field) = none) ∧
      Struct goLib 2 (heapOf (simpleResource 0 "A")) ptr0 [("a", some "2"), ("unknown", none)]
        = some (heapOf (simpleResource 0 "A"), none)) :=
  ⟨⟨rfl, Struct_no_matching_key goLib 2 (heapOf (simpleResource 0 "A")) ptr0 [] 0
      (simpleResourceFields 0 "A") rfl (by decide)⟩,
   ⟨by decide, Struct_no_matching_key goLib 2 (heapOf (simpleResource 0 "A")) ptr0
      [("a", some "2"), ("unknown", none)] 0 (simpleResourceFields 0 "A") rfl (by decide)⟩⟩

/-- C12, as stated, fails.  Two `resourceWithPointer` records that differ only
in what the field `A` points to, `{A: 1, B: "2"}` and `{A: 1, B: "3"}`, are
patched with `{"A": {"a": 2}}`; both calls return nil, the first leaves `A`
pointing to `{A: 2, B: "2"}` and the second to `{A: 2, B: "3"}`.  The same
holds for a field of struct type, and a nil pointer ends at `{A: 2, B: ""}`.
For a field of type `int`, the records `{A: 1, B: "2"}` and `{A: 5, B: "2"}`
patched with `{"A": null}` keep 1 and 5, both calls returning nil.  In
`struct { Inner simpleWithTags; P *simpleWithTags }` with `P = &r.Inner`, the
patch set `{"Inner": {"a": 3}, "P": {"a": 2}}` returns nil and leaves
`Inner.A = 2`, not 3. -/
theorem Struct_decode_merges_into_field :
    runOn compositeLib 2 (resourceWithPointerFields (.ptr 1 "2")) [("A", some objectA2)]
      = some (.concrete (.struct (resourceWithPointerFields (.ptr 2 "2"))), none) ∧
    runOn compositeLib 2 (resourceWithPointerFields (.ptr 1 "3")) [("A", some objectA2)]
      = some (.concrete (.struct (resourceWithPointerFields (.ptr 2 "3"))), none) ∧
    runOn compositeLib 2 (resourceWithPointerFields .nilPtr) [("A", some objectA2)]
      = some (.concrete (.struct (resourceWithPointerFields (.ptr 2 ""))), none) ∧
    runOn compositeLib 2 (withInnerFields (.struct 1 "2")) [("Inner", some objectA2)]
      = some (.concrete (.struct (withInnerFields (.struct 2 "2"))), none) ∧
    runOn compositeLib 2 (withInnerFields (.struct 1 "3")) [("Inner", some objectA2)]
      = some (.concrete (.struct (withInnerFields (.struct 2 "3"))), none) ∧
    CompositeValue.ptr 2 "2" ≠ CompositeValue.ptr 2 "3" ∧
    CompositeValue.struct 2 "2" ≠ CompositeValue.struct 2 "3" ∧
    runAt0 2 (simpleResource 1 "2") [("A", some "null")]
      = some (.concrete (simpleResource 1 "2"), none) ∧
    runAt0 2 (simpleResource 5 "2") [("A", some "null")]
      = some (.concrete (simpleResource 5 "2"), none) ∧
    runOn compositeLib 2 (aliasedFields (.struct 1 "2"))
        [("Inner", some objectA3), ("P", some objectA2)]
      = some (.concrete (.struct (aliasedFields (.struct 2 "2"))), none) := by
  refine ⟨?_, ?_, ?_, ?_, ?_, ?_, ?_, ?_, ?_, ?_⟩ <;> decide

/-- C12, amended: when `json.Unmarshal` writes nothing but the field it is
given, and `Struct` returns nil on two addressable struct records that differ
only in the value of the accessible field `F`, named with a raw value, then in
each record `F` holds what `json.Unmarshal` of the raw value into `F`, with the
value `F` held, left, that decoding succeeded, and the two records are equal
after the calls exactly when `json.Unmarshal` left the same value for both. -/
theorem Struct_decoded_value (L : Lib Ty Val Err) (U : LocalLib Ty Val Err) (fuel : Nat)
    (h1 h2 : Heap Ty Val) (r1 r2 : Option (Concrete Ty Val)) (p : Patches) (a1 a2 : Addr)
    (pre : List (FieldSlot Ty Val)) (f : StructField Ty) (v1 v2 : Val)
    (post : List (FieldSlot Ty Val)) (raw : RawMessage) (g1 g2 : Heap Ty Val)
    (hconf : ConfinedTo L U)
    (hrec1 : AddressableRecord h1 fuel r1 a1 (pre ++ ⟨f, v1⟩ :: post))
    (hrec2 : AddressableRecord h2 fuel r2 a2 (pre ++ ⟨f, v2⟩ :: post))
    (hacc : f.PkgPath = "") (hraw : p.get (jsonFieldName f) = some (some raw))
    (hnil1 : Struct L fuel h1 r1 p = some (g1, none))
    (hnil2 : Struct L fuel h2 r2 p = some (g2, none)) :
    ∃ fs1 fs2, g1 a1 = .concrete (.struct fs1) ∧ g2 a2 = .concrete (.struct fs2) ∧
      fs1[pre.length]? = some ⟨f, (U.Unmarshal raw f.Typ v1).1⟩ ∧
      (U.Unmarshal raw f.Typ v1).2 = none ∧
      fs2[pre.length]? = some ⟨f, (U.Unmarshal raw f.Typ v2).1⟩ ∧
      (U.Unmarshal raw f.Typ v2).2 = none ∧
      (fs1 = fs2 ↔ (U.Unmarshal raw f.Typ v1).1 = (U.Unmarshal raw f.Typ v2).1) := by
  obtain ⟨hok1, hg1⟩ := (Struct_nil_iff L U fuel h1 r1 p a1 _ g1 hconf hrec1).mp hnil1
  obtain ⟨hok2, hg2⟩ := (Struct_nil_iff L U fuel h2 r2 p a2 _ g2 hconf hrec2).mp hnil2
  have hF : ∀ v : Val, confinedField U p ⟨f, v⟩ = ⟨f, (U.Unmarshal raw f.Typ v).1⟩ := by
    intro v
    simp [confinedField, accessible, hacc, hraw]
  have hD : ∀ v : Val, decodeFailure U p ⟨f, v⟩ = (U.Unmarshal raw f.Typ v).2 := by
    intro v
    simp [decodeFailure, accessible, hacc, hraw]
  have hmap : ∀ v : Val, (pre ++ (⟨f, v⟩ : FieldSlot Ty Val) :: post).map (confinedField U p)
      = pre.map (confinedField U p) ++
        (⟨f, (U.Unmarshal raw f.Typ v).1⟩ : FieldSlot Ty Val) :: post.map (confinedField U p) := by
    intro v
    rw [List.map_append, List.map_cons, hF v]
  have hget : ∀ v : Val,
      ((pre ++ (⟨f, v⟩ : FieldSlot Ty Val) :: post).map (confinedField U p))[pre.length]?
        = some ⟨f, (U.Unmarshal raw f.Typ v).1⟩ := by
    intro v
    rw [hmap v]
    have hlen : (pre.map (confinedField U p)).length ≤ pre.length := by simp
    rw [List.getElem?_append_right hlen]
    simp
  refine ⟨_, _, by rw [hg1]; simp, by rw [hg2]; simp, hget v1, ?_, hget v2, ?_, ?_⟩
  · rw [← hD v1]
    exact hok1 _ (by simp)
  · rw [← hD v2]
    exact hok2 _ (by simp)
  · rw [hmap v1, hmap v2]
    constructor
    · intro heq
      have hc := List.append_cancel_left heq
      simp only [List.cons.injEq, FieldSlot.mk.injEq, true_and] at hc
      exact hc.1
    · intro heq
      rw [heq]

/-- C12 amended, at the records `{A: 1, B: "2"}` and `{A: 5, B: "2"}` of type
`simpleResource` with the patch set `{"A": 2}`: both calls return nil, the
field `A` holds 2 in both, and the records are equal. -/
theorem Struct_decoded_value_witness :
    ConfinedTo goLib goLocal ∧
    AddressableRecord (heapOf (simpleResource 1 "2")) 2 ptr0 0
      ([] ++ ⟨⟨"A", "", [], .int⟩, .int 1⟩ :: [⟨⟨"B", "", [], .string⟩, .string "2"⟩]) ∧
    AddressableRecord (heapOf (simpleResource 5 "2")) 2 ptr0 0
      ([] ++ ⟨⟨"A", "", [], .int⟩, .int 5⟩ :: [⟨⟨"B", "", [], .string⟩, .string "2"⟩]) ∧
    Struct goLib 2 (heapOf (simpleResource 1 "2")) ptr0 [("A", some "2")]
      = some (Function.update (heapOf (simpleResource 1 "2")) 0
          (.concrete (simpleResource 2 "2")), none) ∧
    Struct goLib 2 (heapOf (simpleResource 5 "2")) ptr0 [("A", some "2")]
      = some (Function.update (heapOf (simpleResource 5 "2")) 0
          (.concrete (simpleResource 2 "2")), none) ∧
    ∃ fs1 fs2,
      Function.update (heapOf (simpleResource 1 "2")) 0 (.concrete (simpleResource 2 "2")) 0
        = .concrete (.struct fs1) ∧
      Function.update (heapOf (simpleResource 5 "2")) 0 (.concrete (simpleResource 2 "2")) 0
        = .concrete (.struct fs2) ∧
      fs1[([] : List (FieldSlot GoType GoValue)).length]?
        = some ⟨⟨"A", "", [], .int⟩, (goLocal.Unmarshal "2" .int (.int 1)).1⟩ ∧
      (goLocal.Unmarshal "2" .int (.int 1)).2 = none ∧
      fs2[([] : List (FieldSlot GoType GoValue)).length]?
        = some ⟨⟨"A", "", [], .int⟩, (goLocal.Unmarshal "2" .int (.int 5)).1⟩ ∧
      (goLocal.Unmarshal "2" .int (.int 5)).2 = none ∧
      (fs1 = fs2 ↔
        (goLocal.Unmarshal "2" .int (.int 1)).1 = (goLocal.Unmarshal "2" .int (.int 5)).1) :=
  ⟨ofLocal_confined goLocal, rfl, rfl, rfl, rfl,
    Struct_decoded_value goLib goLocal 2 (heapOf (simpleResource 1 "2"))
      (heapOf (simpleResource 5 "2")) ptr0 ptr0 [("A", some "2")] 0 0 []
      ⟨"A", "", [], .int⟩ (.int 1) (.int 5) [⟨⟨"B", "", [], .string⟩, .string "2"⟩] "2" _ _
      (ofLocal_confined goLocal) rfl rfl rfl rfl rfl rfl⟩

/-- C13: `Struct` does not terminate on every resource.  After
`var i interface{}; i = &i` the call `Struct(i, patches)` does not return,
however many times the condition of the unwrapping loop is tested: the pointer
leads to the interface variable and the interface variable holds the pointer.
The doc comment of `Struct` promises an error for a resource that is not a
pointer to a struct. -/
theorem Struct_self_pointer_never_returns :
    selfHeap 0 = .iface (some (.ptr (some 0))) ∧
    ¬ ∃ fuel result, Struct goLib fuel selfHeap (some (.ptr (some 0))) [] = some result := by
  refine ⟨rfl, ?_⟩
  rintro ⟨fuel, result, hres⟩
  have hnone := (unwrap_selfHeap fuel none false).1
  simp [Struct, ValueOf, hnone] at hres

/-- Termination on finite chains: when the chain of pointers and interfaces
around the resource is finite, ending after `n` calls of `Elem`, `Struct`
returns (nil or an error)
as soon as the loop condition may be tested more than `n` times, for every
patch set; the field loop visits each declared field once and leaves as many
fields as it found. -/
theorem Struct_terminates_of_finite (L : Lib Ty Val Err) (fuel : Nat) (h : Heap Ty Val)
    (resource : Option (Concrete Ty Val)) (p : Patches) (n : Nat)
    (hfin : EndsAfter h (ValueOf resource) n) (hfuel : n < fuel) :
    (∃ h' err, Struct L fuel h resource p = some (h', err)) ∧
    ∀ fs : List (FieldSlot Ty Val), (patchFields L p true false fs).1.length = fs.length := by
  refine ⟨?_, fun fs => patchFields_length L p true false fs⟩
  obtain ⟨v, hv⟩ := unwrap_of_EndsAfter h (ValueOf resource) n hfin fuel hfuel
  unfold Struct
  rw [hv]
  simp only []
  split
  · split <;> exact ⟨_, _, rfl⟩
  · exact ⟨_, _, rfl⟩

/-- Termination at the resource of the tests: `&test.Resource` is a pointer to
an interface that holds a pointer to the struct, a chain of three layers. -/
theorem Struct_terminates_of_finite_witness :
    EndsAfter (testHeap (simpleResource 1 "2") (.ptr (some 0))) (ValueOf testArg) 3 ∧
    3 < 4 ∧
    (∃ h' err, Struct goLib 4 (testHeap (simpleResource 1 "2") (.ptr (some 0))) testArg
        [("A", some "2")] = some (h', err)) :=
  have hfin : EndsAfter (testHeap (simpleResource 1 "2") (.ptr (some 0))) (ValueOf testArg) 3 :=
    .step ⟨some (.concrete (.ptr (some 1))), none, false⟩
      ⟨some (.iface (some (.ptr (some 0)))), some 1, false⟩ 2 (by decide) rfl
      (.step _ ⟨some (.concrete (.ptr (some 0))), none, false⟩ 1 (by decide) rfl
        (.step _ ⟨some (.concrete (simpleResource 1 "2")), some 0, false⟩ 0 (by decide) rfl
          (.done _ (by decide))))
  ⟨hfin, by decide, (Struct_terminates_of_finite goLib 4
    (testHeap (simpleResource 1 "2") (.ptr (some 0))) testArg [("A", some "2")] 3 hfin
    (by decide)).1⟩

/-- C14: the first failure wins and the order of the keys does not matter: when
the loop reaches the declared field number `i`, so that no field declared
before it failed to decode, and that field `F` fails to decode, `Struct`
returns the decode failure of `F`, whatever the fields declared after `F`
would do, and a patch set with the same entries in another order gives the
same result.  When `json.Unmarshal` writes nothing but the field it is given,
`F` is the first declared field that fails to decode with the contents it had
before the call. -/
theorem Struct_first_failure_wins (L : Lib Ty Val Err) (fuel : Nat) (h : Heap Ty Val)
    (resource : Option (Concrete Ty Val)) (p q : Patches) (a : Addr)
    (fields : List (FieldSlot Ty Val))
    (hrec : AddressableRecord h fuel resource a fields)
    (hperm : p.Perm q) (hnd : (p.map Prod.fst).Nodup) :
    Struct L fuel h resource q = Struct L fuel h resource p ∧
    (∀ (i : Nat) (r : List (FieldSlot Ty Val)) (F : FieldSlot Ty Val) (raw : RawMessage)
        (e : Err), reached L p i fields = some r → r[i]? = some F → accessible F = true →
      p.get (jsonFieldName F.field) = some (some raw) →
      (L.Unmarshal raw F.field.Typ i (r.map (fun t => t.val))).2 = some e →
      ∃ h', Struct L fuel h resource p = some (h', some (.unmarshal e))) ∧
    (∀ (U : LocalLib Ty Val Err) (pre : List (FieldSlot Ty Val)) (F : FieldSlot Ty Val)
        (post : List (FieldSlot Ty Val)) (e : Err),
      ConfinedTo L U → fields = pre ++ F :: post →
      (∀ t ∈ pre, decodeFailure U p t = none) → decodeFailure U p F = some e →
      ∃ h', Struct L fuel h resource p = some (h', some (.unmarshal e))) := by
  refine ⟨(Struct_congr L fuel h resource p q (get_of_perm p q hperm hnd)).symm, ?_, ?_⟩
  · intro i r F raw e hreach hF hacc hraw hfail
    have hv : (visit L p i r).2 = some e :=
      (visit_error_iff L p i r e).mpr ⟨F, raw, hF, hacc, hraw, hfail⟩
    rw [Struct_of_addressable L fuel h resource p a fields hrec,
      patchFields_of_failure L p i fields r (visit L p i r).1 e hreach (by rw [← hv])]
    exact ⟨_, rfl⟩
  · intro U pre F post e hconf hfields hpre hF
    subst hfields
    rw [Struct_of_confined L U fuel h resource p a (pre ++ F :: post) hconf hrec,
      confinedLoop_fail U p pre F post e hpre hF]
    exact ⟨_, rfl⟩

/-- C14, at the record `{A: 1, B: 2}` with raw values that fail for both fields:
the error is that of `A`, for the keys in either order. -/
theorem Struct_first_failure_wins_witness :
    AddressableRecord (heapOf (twoInts 1 2)) 2 ptr0 0 (twoIntsFields 1 2) ∧
    decodeFailure goLocal [("A", some "not json"), ("B", some "bad")] ⟨⟨"A", "", [], .int⟩, .int 1⟩
      = some ⟨"not json", .int⟩ ∧
    decodeFailure goLocal [("A", some "not json"), ("B", some "bad")] ⟨⟨"B", "", [], .int⟩, .int 2⟩
      = some ⟨"bad", .int⟩ ∧
    Struct goLib 2 (heapOf (twoInts 1 2)) ptr0 [("B", some "bad"), ("A", some "not json")]
      = Struct goLib 2 (heapOf (twoInts 1 2)) ptr0 [("A", some "not json"), ("B", some "bad")] ∧
    (∃ h', Struct goLib 2 (heapOf (twoInts 1 2)) ptr0 [("A", some "not json"), ("B", some "bad")]
        = some (h', some (.unmarshal ⟨"not json", .int⟩))) ∧
    (∃ h', Struct goLib 2 (heapOf (twoInts 1 2)) ptr0 [("A", some "not json"), ("B", some "bad")]
        = some (h', some (.unmarshal ⟨"not json", .int⟩))) :=
  have hthm := Struct_first_failure_wins goLib 2 (heapOf (twoInts 1 2)) ptr0
      [("A", some "not json"), ("B", some "bad")] [("B", some "bad"), ("A", some "not json")] 0
      (twoIntsFields 1 2) rfl (List.Perm.swap _ _ _) (by decide)
  ⟨rfl, by decide, by decide, hthm.1,
    hthm.2.1 0 (twoIntsFields 1 2) ⟨⟨"A", "", [], .int⟩, .int 1⟩ "not json" ⟨"not json", .int⟩
      rfl rfl rfl rfl (by decide),
    hthm.2.2 goLocal [] ⟨⟨"A", "", [], .int⟩, .int 1⟩ [⟨⟨"B", "", [], .int⟩, .int 2⟩]
      ⟨"not json", .int⟩ (ofLocal_confined goLocal) rfl (by simp) (by decide)⟩

/-- C15, as stated, fails: in
`struct { A simpleWithTags; B simpleWithTags "json:\"A\""; P *simpleWithTags }`
with `P = &r.A`, holding `A = {A: 1, B: "x"}` and `B = {A: 1, B: "y"}`, the
patch set `{"A": nil, "P": {"a": 2}}` returns nil; the fields `A` and `B`
share the exposed name "A", whose entry is nil, and `B` ends at the zero
value while `A` ends at `{A: 2, B: ""}`, because decoding `P` writes what `P`
points to.  With the patch set `{"A": {"a": 2}}` the two fields, of the same
type, end at the different values `{A: 2, B: "x"}` and `{A: 2, B: "y"}`. -/
theorem Struct_same_name_written_through_pointer :
    jsonFieldName (⟨"A", "", [], .simpleWithTags⟩ : StructField CompositeType) = "A" ∧
    jsonFieldName (⟨"B", "", [("json", "A")], .simpleWithTags⟩ : StructField CompositeType)
      = "A" ∧
    runOn compositeLib 2 (sameNameAliasedFields (.struct 1 "x") (.struct 1 "y"))
        [("A", none), ("P", some objectA2)]
      = some (.concrete (.struct (sameNameAliasedFields (.struct 2 "") (.struct 0 ""))), none) ∧
    compositeLib.Zero .simpleWithTags = .struct 0 "" ∧
    CompositeValue.struct 2 "" ≠ compositeLib.Zero .simpleWithTags ∧
    runOn compositeLib 2 (sameNameAliasedFields (.struct 1 "x") (.struct 1 "y"))
        [("A", some objectA2)]
      = some (.concrete (.struct (sameNameAliasedFields (.struct 2 "x") (.struct 2 "y"))), none) ∧
    CompositeValue.struct 2 "x" ≠ CompositeValue.struct 2 "y" := by
  refine ⟨?_, ?_, ?_, ?_, ?_, ?_, ?_⟩ <;> decide

/-- C15, amended: when `json.Unmarshal` writes nothing but the field it is
given and `Struct` returns nil on an addressable struct record, every
accessible field whose exposed name is the key `k` holds the zero value of its
own type if the entry of `k` is nil, and what `json.Unmarshal` of the raw
value of `k` into the field, for its own type and with the value the field
held, left if the entry is a raw value; the fields that share the name are
treated alike. -/
theorem Struct_same_name (L : Lib Ty Val Err) (U : LocalLib Ty Val Err) (fuel : Nat)
    (h : Heap Ty Val) (resource : Option (Concrete Ty Val)) (p : Patches) (a : Addr)
    (fields : List (FieldSlot Ty Val)) (h' : Heap Ty Val) (k : String)
    (hconf : ConfinedTo L U)
    (hrec : AddressableRecord h fuel resource a fields)
    (hnil : Struct L fuel h resource p = some (h', none)) :
    ∃ fields', h' a = .concrete (.struct fields') ∧
      ∀ (i : Nat) (s : FieldSlot Ty Val), fields[i]? = some s → accessible s = true →
        jsonFieldName s.field = k →
        (p.get k = some none → fields'[i]? = some ⟨s.field, U.Zero s.field.Typ⟩) ∧
        (∀ raw, p.get k = some (some raw) →
          fields'[i]? = some ⟨s.field, (U.Unmarshal raw s.field.Typ s.val).1⟩ ∧
          (U.Unmarshal raw s.field.Typ s.val).2 = none) := by
  obtain ⟨hok, hh⟩ := (Struct_nil_iff L U fuel h resource p a fields h' hconf hrec).mp hnil
  refine ⟨fields.map (confinedField U p), by rw [hh]; simp, ?_⟩
  intro i s hi hacc hname
  have hmem : s ∈ fields := List.getElem?_mem hi
  rw [List.getElem?_map, hi]
  constructor
  · intro hnull
    simp [confinedField, hacc, hname, hnull]
  · intro raw hraw
    have hd := hok s hmem
    simp only [decodeFailure, hacc, hname, hraw, if_true] at hd
    exact ⟨by simp [confinedField, hacc, hname, hraw], hd⟩

/-- C15 amended, at the record with the fields `A int` and `B int` tagged
`json:"A"`, holding 1 and 2: the patch set `{"A": 7}` sets both to 7, and the
patch set `{"A": null}` sets both to 0. -/
theorem Struct_same_name_witness :
    ConfinedTo goLib goLocal ∧
    AddressableRecord (heapOf (.struct (sameNameFields 1 2))) 2 ptr0 0 (sameNameFields 1 2) ∧
    Struct goLib 2 (heapOf (.struct (sameNameFields 1 2))) ptr0 [("A", some "7")]
      = some (Function.update (heapOf (.struct (sameNameFields 1 2))) 0
          (.concrete (.struct (sameNameFields 7 7))), none) ∧
    runAt0 2 (.struct (sameNameFields 1 2)) [("A", none)]
      = some (.concrete (.struct (sameNameFields 0 0)), none) ∧
    ∃ fields', Function.update (heapOf (.struct (sameNameFields 1 2))) 0
          (.concrete (.struct (sameNameFields 7 7))) 0 = .concrete (.struct fields') ∧
      ∀ (i : Nat) (s : FieldSlot GoType GoValue), (sameNameFields 1 2)[i]? = some s →
        accessible s = true → jsonFieldName s.field = "A" →
        (Patches.get [("A", some "7")] "A" = some none →
          fields'[i]? = some ⟨s.field, goLocal.Zero s.field.Typ⟩) ∧
        (∀ raw, Patches.get [("A", some "7")] "A" = some (some raw) →
          fields'[i]? = some ⟨s.field, (goLocal.Unmarshal raw s.field.Typ s.val).1⟩ ∧
          (goLocal.Unmarshal raw s.field.Typ s.val).2 = none) :=
  ⟨ofLocal_confined goLocal, rfl, rfl, by decide,
    Struct_same_name goLib goLocal 2 (heapOf (.struct (sameNameFields 1 2))) ptr0
      [("A", some "7")] 0 (sameNameFields 1 2) _ "A" (ofLocal_confined goLocal) rfl rfl⟩

/-- C16, as stated, fails: the record has the field `C` of a type whose
`UnmarshalJSON` adds one to the destination; with the patch set `{"C": 1}` the
first call returns nil and leaves `C = 1`, and the second call on that record
returns nil and leaves `C = 2`.  It also fails when decoding each raw value
again changes nothing: in `struct { Done int; Count int; P Once }` with
`P = Once{&r.Done, &r.Count}` and the patch set `{"Done": nil, "P": 1}`, the
first call returns nil and leaves `Done = 1, Count = 1`; `json.Unmarshal` of
the raw value of `P` into `P` on that record changes nothing; the second call
sets `Done` to zero, decodes `P`, and leaves `Done = 1, Count = 2`. -/
theorem Struct_not_idempotent_for_unmarshaler :
    AddressableRecord (heapAt0 (.struct (counterFields 0))) 2 (some (.ptr (some 0))) 0
      (counterFields 0) ∧
    Struct counterLib 2 (heapAt0 (.struct (counterFields 0))) (some (.ptr (some 0)))
        [("C", some "1")]
      = some (Function.update (heapAt0 (.struct (counterFields 0))) 0
          (.concrete (.struct (counterFields 1))), none) ∧
    (Struct counterLib 2
        (Function.update (heapAt0 (.struct (counterFields 0))) 0
          (.concrete (.struct (counterFields 1))))
        (some (.ptr (some 0))) [("C", some "1")]).map (fun r => (r.1 0, r.2))
      = some (.concrete (.struct (counterFields 2)), none) ∧
    counterFields 2 ≠ counterFields 1 ∧
    runOn onceLib 2 (onceFields 5 0) [("Done", none), ("P", some "1")]
      = some (.concrete (.struct (onceFields 1 1)), none) ∧
    onceLib.Unmarshal "1" .Once 2 ((onceFields 1 1).map (fun t => t.val))
      = ((onceFields 1 1).map (fun t => t.val), none) ∧
    runOn onceLib 2 (onceFields 1 1) [("Done", none), ("P", some "1")]
      = some (.concrete (.struct (onceFields 1 2)), none) ∧
    onceFields 1 2 ≠ onceFields 1 1 := by
  refine ⟨rfl, rfl, ?_, ?_, ?_, ?_, ?_, ?_⟩ <;> decide

/-- C16, amended: when `json.Unmarshal` writes nothing but the field it is
given, `Struct` returns nil on an addressable struct record, and for every
accessible field patched with a raw value decoding that raw value again, into
the value the first decoding left, succeeds and leaves that value, then
`Struct` with the same patch set on the resulting heap returns nil and leaves
the heap as the first call left it. -/
theorem Struct_idempotent (L : Lib Ty Val Err) (U : LocalLib Ty Val Err) (fuel : Nat)
    (h : Heap Ty Val) (resource : Option (Concrete Ty Val)) (p : Patches) (a : Addr)
    (fields : List (FieldSlot Ty Val)) (h1 : Heap Ty Val)
    (hconf : ConfinedTo L U)
    (hrec : AddressableRecord h fuel resource a fields)
    (hnil : Struct L fuel h resource p = some (h1, none))
    (hidem : ∀ s ∈ fields, accessible s = true →
      ∀ raw, p.get (jsonFieldName s.field) = some (some raw) →
        (U.Unmarshal raw s.field.Typ s.val).2 = none →
        U.Unmarshal raw s.field.Typ (U.Unmarshal raw s.field.Typ s.val).1
          = ((U.Unmarshal raw s.field.Typ s.val).1, none)) :
    Struct L fuel h1 resource p = some (h1, none) := by
  obtain ⟨hok, hh⟩ := (Struct_nil_iff L U fuel h resource p a fields h1 hconf hrec).mp hnil
  subst hh
  have hrec1 := addressable_update h fuel resource a fields (fields.map (confinedField U p)) hrec
  have hfield : ∀ s ∈ fields, decodeFailure U p (confinedField U p s) = none ∧
      confinedField U p (confinedField U p s) = confinedField U p s := by
    intro s hs
    apply confinedField_idem
    intro hacc raw hraw
    have hd := hok s hs
    simp only [decodeFailure, hacc, hraw, if_true] at hd
    exact hidem s hs hacc raw hraw hd
  rw [Struct_nil_iff L U fuel _ resource p a _ _ hconf hrec1]
  constructor
  · intro t ht
    obtain ⟨s, hs, rfl⟩ := List.mem_map.mp ht
    exact (hfield s hs).1
  · have hm : (fields.map (confinedField U p)).map (confinedField U p)
        = fields.map (confinedField U p) := by
      rw [List.map_map]
      exact List.map_congr_left (fun s hs => (hfield s hs).2)
    rw [hm, Function.update_idem]

/-- C16 amended, at the test `simple_populated`: the record `{A: 1, B: "2"}` and
the patch set `{"A": 2}`, applied twice. -/
theorem Struct_idempotent_witness :
    ConfinedTo goLib goLocal ∧
    AddressableRecord (heapOf (simpleResource 1 "2")) 2 ptr0 0 (simpleResourceFields 1 "2") ∧
    Struct goLib 2 (heapOf (simpleResource 1 "2")) ptr0 [("A", some "2")]
      = some (Function.update (heapOf (simpleResource 1 "2")) 0
          (.concrete (simpleResource 2 "2")), none) ∧
    Struct goLib 2 (Function.update (heapOf (simpleResource 1 "2")) 0
        (.concrete (simpleResource 2 "2"))) ptr0 [("A", some "2")]
      = some (Function.update (heapOf (simpleResource 1 "2")) 0
          (.concrete (simpleResource 2 "2")), none) :=
  ⟨ofLocal_confined goLocal, rfl, rfl,
    Struct_idempotent goLib goLocal 2 (heapOf (simpleResource 1 "2")) ptr0 [("A", some "2")] 0
      (simpleResourceFields 1 "2") _ (ofLocal_confined goLocal) rfl rfl
      (fun s _ _ raw _ hok => jsonUnmarshal_idem raw s.field.Typ s.val hok)⟩

/-- C17, as stated, fails: in `struct { Inner simpleWithTags; P *simpleWithTags }`
with `P = &r.Inner` and `Inner = {A: 1, B: "2"}`, the patch sets
`P = {"P": {"a": 2}}` and `Q = {"Inner": {"a": 3}}` share no key and every call
returns nil; `P` and then `Q` leaves `Inner.A = 3`, while the union in one call
and `Q` and then `P` leave `Inner.A = 2`. -/
theorem Struct_disjoint_not_compose :
    (∀ k, Patches.get [("P", some objectA2)] k = none ∨
      Patches.get [("Inner", some objectA3)] k = none) ∧
    runOn compositeLib 2 (aliasedFields (.struct 1 "2")) [("P", some objectA2)]
      = some (.concrete (.struct (aliasedFields (.struct 2 "2"))), none) ∧
    runOn compositeLib 2 (aliasedFields (.struct 2 "2")) [("Inner", some objectA3)]
      = some (.concrete (.struct (aliasedFields (.struct 3 "2"))), none) ∧
    runOn compositeLib 2 (aliasedFields (.struct 1 "2"))
        ([("P", some objectA2)] ++ [("Inner", some objectA3)])
      = some (.concrete (.struct (aliasedFields (.struct 2 "2"))), none) ∧
    runOn compositeLib 2 (aliasedFields (.struct 1 "2")) [("Inner", some objectA3)]
      = some (.concrete (.struct (aliasedFields (.struct 3 "2"))), none) ∧
    runOn compositeLib 2 (aliasedFields (.struct 3 "2")) [("P", some objectA2)]
      = some (.concrete (.struct (aliasedFields (.struct 2 "2"))), none) ∧
    aliasedFields (.struct 3 "2") ≠ aliasedFields (.struct 2 "2") := by
  refine ⟨?_, ?_, ?_, ?_, ?_, ?_, ?_⟩
  · intro k
    by_cases hk : k = "P"
    · right
      subst hk
      decide
    · left
      have hb : (k == "P") = false := by simp [hk]
      simp [Patches.get, List.lookup, hb]
  all_goals decide

/-- C17, amended: when `json.Unmarshal` writes nothing but the field it is
given, on an addressable struct record, for patch sets `P` and `Q` without a
common key, if `Struct` with `P` returns nil and `Struct` with `Q` on the result
returns nil, then `Struct` with the union of `P` and `Q` returns nil and leaves
the same heap, and so does `Struct` with `Q` followed by `Struct` with `P`. -/
theorem Struct_disjoint_compose (L : Lib Ty Val Err) (U : LocalLib Ty Val Err) (fuel : Nat)
    (h : Heap Ty Val) (resource : Option (Concrete Ty Val)) (P Q : Patches) (a : Addr)
    (fields : List (FieldSlot Ty Val)) (h1 h2 : Heap Ty Val)
    (hconf : ConfinedTo L U)
    (hrec : AddressableRecord h fuel resource a fields)
    (hdisj : ∀ k, P.get k = none ∨ Q.get k = none)
    (hP : Struct L fuel h resource P = some (h1, none))
    (hQ : Struct L fuel h1 resource Q = some (h2, none)) :
    Struct L fuel h resource (P ++ Q) = some (h2, none) ∧
    ∃ h1', Struct L fuel h resource Q = some (h1', none) ∧
      Struct L fuel h1' resource P = some (h2, none) := by
  obtain ⟨hokP, hh1⟩ := (Struct_nil_iff L U fuel h resource P a fields h1 hconf hrec).mp hP
  subst hh1
  have hrec1 := addressable_update h fuel resource a fields (fields.map (confinedField U P)) hrec
  obtain ⟨hokQ, hh2⟩ := (Struct_nil_iff L U fuel _ resource Q a _ h2 hconf hrec1).mp hQ
  rw [Function.update_idem, List.map_map] at hh2
  subst hh2
  have hD := fun s (hs : s ∈ fields) =>
    confinedField_disjoint U P Q s hdisj (hokP s hs)
      (hokQ (confinedField U P s) (List.mem_map_of_mem _ hs))
  constructor
  · rw [Struct_nil_iff L U fuel h resource (P ++ Q) a fields _ hconf hrec]
    refine ⟨fun s hs => (hD s hs).1, ?_⟩
    have hm : fields.map (confinedField U (P ++ Q))
        = fields.map (confinedField U Q ∘ confinedField U P) :=
      List.map_congr_left (fun s hs => (hD s hs).2.1)
    rw [hm]
  · refine ⟨Function.update h a (.concrete (.struct (fields.map (confinedField U Q)))), ?_, ?_⟩
    · rw [Struct_nil_iff L U fuel h resource Q a fields _ hconf hrec]
      exact ⟨fun s hs => (hD s hs).2.2.1, rfl⟩
    · have hrec2 :=
        addressable_update h fuel resource a fields (fields.map (confinedField U Q)) hrec
      rw [Struct_nil_iff L U fuel _ resource P a _ _ hconf hrec2]
      constructor
      · intro t ht
        obtain ⟨s, hs, rfl⟩ := List.mem_map.mp ht
        exact (hD s hs).2.2.2.1
      · have hm : fields.map (confinedField U P ∘ confinedField U Q)
            = fields.map (confinedField U Q ∘ confinedField U P) :=
          List.map_congr_left (fun s hs => (hD s hs).2.2.2.2)
        rw [Function.update_idem, List.map_map, hm]

/-- C17 amended, at the record `{A: 1, B: "x"}` with `P = {"A": 2}` and
`Q = {"B": "y"}`: `P` then `Q`, the union, and `Q` then `P` all give
`{A: 2, B: "y"}`. -/
theorem Struct_disjoint_compose_witness :
    ConfinedTo goLib goLocal ∧
    AddressableRecord (heapOf (simpleResource 1 "x")) 2 ptr0 0 (simpleResourceFields 1 "x") ∧
    (∀ k, Patches.get [("A", some "2")] k = none ∨ Patches.get [("B", some "\"y\"")] k = none) ∧
    Struct goLib 2 (heapOf (simpleResource 1 "x")) ptr0 [("A", some "2")]
      = some (Function.update (heapOf (simpleResource 1 "x")) 0
          (.concrete (simpleResource 2 "x")), none) ∧
    Struct goLib 2 (Function.update (heapOf (simpleResource 1 "x")) 0
        (.concrete (simpleResource 2 "x"))) ptr0 [("B", some "\"y\"")]
      = some (Function.update (Function.update (heapOf (simpleResource 1 "x")) 0
          (.concrete (simpleResource 2 "x"))) 0 (.concrete (simpleResource 2 "y")), none) ∧
    (Struct goLib 2 (heapOf (simpleResource 1 "x")) ptr0
        ([("A", some "2")] ++ [("B", some "\"y\"")])
      = some (Function.update (Function.update (heapOf (simpleResource 1 "x")) 0
          (.concrete (simpleResource 2 "x"))) 0 (.concrete (simpleResource 2 "y")), none) ∧
      ∃ h1', Struct goLib 2 (heapOf (simpleResource 1 "x")) ptr0 [("B", some "\"y\"")]
          = some (h1', none) ∧
        Struct goLib 2 h1' ptr0 [("A", some "2")]
          = some (Function.update (Function.update (heapOf (simpleResource 1 "x")) 0
              (.concrete (simpleResource 2 "x"))) 0 (.concrete (simpleResource 2 "y")), none)) :=
  have hdisj : ∀ k, Patches.get [("A", some "2")] k = none ∨
      Patches.get [("B", some "\"y\"")] k = none := by
    intro k
    by_cases hk : k = "A"
    · right
      subst hk
      decide
    · left
      have hb : (k == "A") = false := by simp [hk]
      simp [Patches.get, List.lookup, hb]
  ⟨ofLocal_confined goLocal, rfl, hdisj, rfl, rfl,
    Struct_disjoint_compose goLib goLocal 2 (heapOf (simpleResource 1 "x")) ptr0
      [("A", some "2")] [("B", some "\"y\"")] 0 (simpleResourceFields 1 "x") _ _
      (ofLocal_confined goLocal) rfl hdisj rfl rfl⟩

end Claims

end Patch
